import Mathlib

/-! # kafka-compact-test: a shallow embedding of `main.go`

The load generator of `main.go` is embedded function by function:

* `randBytes` / `randView` (lines 34-46): the random pool and the views into it;
* the writer goroutine of `producer` (lines 73-83);
* `printRate` (lines 99-105) and the two process-wide counters (lines 30-31);
* `main` (lines 107-127).

Conventions.  A Go `int` / `int64` is an `Int` in the range `[-2^63, 2^63)`
(64-bit platform); every arithmetic result that Go stores in such a variable
goes through `wrap64`.  A `[]byte` is a `List Byte` whose capacity equals its
length (the only pool of the program is built by `make([]byte, n)`).  The
process-wide generator of `math/rand` is a stream of raw outcomes.  A Go
panic is an `Except.error`.
-/

namespace KafkaCompactTest

/-! ## Machine integers -/

/-- Two's-complement wrap-around of a mathematical integer into `int64`. -/
def wrap64 (x : Int) : Int :=
  (x + 9223372036854775808) % 18446744073709551616 - 9223372036854775808

/-- The value is representable as a Go `int` (64 bits). -/
def IsInt64 (x : Int) : Prop :=
  -9223372036854775808 ≤ x ∧ x < 9223372036854775808

instance (x : Int) : Decidable (IsInt64 x) := by
  unfold IsInt64; infer_instance

/-- The constant `math.MaxInt32`. -/
def MaxInt32 : Int := 2147483647

/-- The largest allocation the Go runtime performs on a 64-bit platform
(`runtime.maxAlloc`, 2^48 bytes): `make([]byte, n)` panics for a larger `n`,
so no `[]byte` is longer. -/
def maxAlloc : Nat := 281474976710656

/-! ## Bytes, panics and the random generator -/

/-- One Go `byte`. -/
abbrev Byte := Fin 256

/-- The byte of an ASCII character (Go indexes a string by bytes). -/
def byteOf (c : Char) : Byte := Fin.ofNat c.toNat

/-- The bytes of an ASCII string literal. -/
def bytesOf (s : String) : List Byte := s.toList.map byteOf

/-- The ways an embedded function can stop without a result: the run-time
panics of Go that the embedded code can raise, and `fuel`, which is not a Go
behaviour but the exhaustion of the iteration budget handed to a loop. -/
inductive Err where
  /-- `rand.Intn` called with `n <= 0`: "invalid argument to Intn". -/
  | intnInvalidArg
  /-- A slice expression `a[lo:hi]` out of range. -/
  | sliceBounds
  /-- An index expression `a[i]` out of range. -/
  | indexOutOfRange
  /-- The call `make([]byte, n)` with `n` negative or above `runtime.maxAlloc`:
  "makeslice: len out of range". -/
  | makesliceLen
  /-- The loop budget of the embedding ran out. -/
  | fuel
  deriving DecidableEq, Repr

/-- The process-wide generator of `math/rand`: `draw i` is the raw outcome of
the `i`-th call, `pos` counts the calls made so far.  Quantifying over all
`Rand` quantifies over every outcome of every call. -/
structure Rand where
  draw : Nat → Nat
  pos : Nat

/-- The generator after one more call. -/
def Rand.next (g : Rand) : Rand := { g with pos := g.pos + 1 }

/-- Go's `rand.Intn(n)`: panics when `n <= 0`, otherwise returns a value of
`[0, n)`, here the raw outcome reduced into that range. -/
def Rand.Intn (n : Int) (g : Rand) : Except Err (Int × Rand) :=
  if n ≤ 0 then .error .intnInvalidArg
  else .ok (((g.draw g.pos % n.toNat : Nat) : Int), g.next)

/-- Go's slice expression `data[lo:hi]` on a slice whose capacity is its
length: panics unless `0 <= lo <= hi <= len(data)`. -/
def sliceOf (data : List Byte) (lo hi : Int) : Except Err (List Byte) :=
  if 0 ≤ lo ∧ lo ≤ hi ∧ hi ≤ (data.length : Int) then
    .ok ((data.drop lo.toNat).take (hi - lo).toNat)
  else .error .sliceBounds

/-- Go's index expression `s[i]`: panics when `i` is out of range. -/
def indexOf (s : List Byte) (i : Int) : Except Err Byte :=
  if 0 ≤ i then
    match s.get? i.toNat with
    | some b => .ok b
    | none => .error .indexOutOfRange
  else .error .indexOutOfRange

/-! ## `randBytes` and `randView` (lines 34-46) -/

/-- The string `ascii` of `randBytes` (line 35), as bytes. -/
def ascii : List Byte :=
  bytesOf "0123456789abcdefghijklmnopqrstuvwxyzABCDEFGHIJKLMNOPQRSTUVWXYZ"

/-- The loop `for i := range b { b[i] = ascii[rand.Intn(len(ascii))] }` of
`randBytes` (lines 37-39): `todo` indices remain, `i` is the next one. -/
def fillFrom : Nat → Nat → List Byte → Rand → Except Err (List Byte × Rand)
  | 0, _, b, g => .ok (b, g)
  | todo + 1, i, b, g => do
    let (j, g1) ← Rand.Intn (ascii.length : Int) g
    let c ← indexOf ascii j
    fillFrom todo (i + 1) (b.set i c) g1

/-- The function `randBytes` (lines 34-41).  The call `make([]byte, n)` of
line 36 panics when `n` is negative or exceeds `runtime.maxAlloc`; within
these bounds the allocation is taken to succeed. -/
def randBytes (n : Int) (g : Rand) : Except Err (List Byte × Rand) :=
  if n < 0 ∨ (maxAlloc : Int) < n then .error .makesliceLen
  else
    let b : List Byte := List.replicate n.toNat 0
    fillFrom b.length 0 b g

/-- The function `randView` (lines 43-46). -/
def randView (n : Int) (data : List Byte) (g : Rand) : Except Err (List Byte × Rand) := do
  let (s, g1) ← Rand.Intn (wrap64 ((data.length : Int) - n)) g
  let v ← sliceOf data s (wrap64 (s + n))
  pure (v, g1)

/-- The start offset `randView` draws for a view of `n` bytes of `data`. -/
def viewStart (n : Int) (data : List Byte) (g : Rand) : Nat :=
  g.draw g.pos % ((data.length : Int) - n).toNat

/-! ## Flags and the process-wide counters (lines 20-32) -/

/-- The flag variables of lines 22-28, after `flag.Parse`. -/
structure Flags where
  producers : Int
  brokers : String
  topic : String
  randomBytes : Int
  records : Int
  keySize : Int
  valueSize : Int

/-- The flag defaults of lines 22-28. -/
def Flags.default : Flags :=
  { producers := 1, brokers := "127.0.0.1:9092", topic := "", randomBytes := 10485760,
    records := 0, keySize := 36, valueSize := 300 }

/-- Every `flag.Int` value is a Go `int`. -/
def Flags.WellTyped (fl : Flags) : Prop :=
  IsInt64 fl.producers ∧ IsInt64 fl.randomBytes ∧ IsInt64 fl.records ∧
    IsInt64 fl.keySize ∧ IsInt64 fl.valueSize

instance (fl : Flags) : Decidable fl.WellTyped := by
  unfold Flags.WellTyped; infer_instance

/-- The variables `rateRecords` and `rateBytes` (lines 30-31). -/
structure Counters where
  rateRecords : Int
  rateBytes : Int
  deriving DecidableEq, Repr

/-- Both counters at their initial value. -/
def Counters.zero : Counters := { rateRecords := 0, rateBytes := 0 }

/-- Go's `atomic.AddInt64(addr, delta)` on the value stored at `addr`: the
new value, with `int64` wrap-around. -/
def AddInt64 (old delta : Int) : Int := wrap64 (old + delta)

/-- Go's `atomic.SwapInt64(addr, new)`: the value to store and the value
returned. -/
def SwapInt64 (old new : Int) : Int × Int := (new, old)

/-- The atomic operations the program performs on the two counters. -/
inductive AtomicOp where
  /-- The call `atomic.AddInt64(&rateRecords, d)` (line 79, with `d = 1`). -/
  | addRecords (d : Int)
  /-- The call `atomic.AddInt64(&rateBytes, d)` (line 80). -/
  | addBytes (d : Int)
  /-- The call `atomic.SwapInt64(&rateRecords, 0)` (line 101). -/
  | swapRecords
  /-- The call `atomic.SwapInt64(&rateBytes, 0)` (line 102). -/
  | swapBytes
  deriving DecidableEq, Repr

/-- One atomic operation on the counters: the new counters and the value the
call returns. -/
def AtomicOp.exec : AtomicOp → Counters → Counters × Int
  | .addRecords d, c =>
    let v := AddInt64 c.rateRecords d
    ({ c with rateRecords := v }, v)
  | .addBytes d, c =>
    let v := AddInt64 c.rateBytes d
    ({ c with rateBytes := v }, v)
  | .swapRecords, c =>
    let r := SwapInt64 c.rateRecords 0
    ({ c with rateRecords := r.1 }, r.2)
  | .swapBytes, c =>
    let r := SwapInt64 c.rateBytes 0
    ({ c with rateBytes := r.1 }, r.2)

/-- The counters after a sequence of atomic operations, executed one after
the other (the atomic operations of `sync/atomic` are sequentially
consistent, so every execution of the goroutines is such a sequence). -/
def runOps : List AtomicOp → Counters → Counters
  | [], c => c
  | op :: rest, c => runOps rest (op.exec c).1

/-- The amount an operation adds to `rateRecords`. -/
def AtomicOp.recordsDelta : AtomicOp → Int
  | .addRecords d => d
  | _ => 0

/-- The amount an operation adds to `rateBytes`. -/
def AtomicOp.bytesDelta : AtomicOp → Int
  | .addBytes d => d
  | _ => 0

/-- The operation is one of the two adds. -/
def AtomicOp.isAdd : AtomicOp → Bool
  | .addRecords _ => true
  | .addBytes _ => true
  | _ => false

/-- The total a sequence of operations adds to `rateRecords`. -/
def recordsAdded (ops : List AtomicOp) : Int := (ops.map AtomicOp.recordsDelta).sum

/-- The total a sequence of operations adds to `rateBytes`. -/
def bytesAdded (ops : List AtomicOp) : Int := (ops.map AtomicOp.bytesDelta).sum

/-! ## Counted loops -/

/-- The Go loop `for i := i0; i < bound; i++ { body }` whose body neither
writes `i` nor changes `bound`; `fuel` bounds the number of iterations the
embedding is willing to run. -/
def forLt {σ : Type} (bound : Int) (body : σ → Except Err σ) :
    Nat → Int → σ → Except Err σ
  | 0, i, s => if i < bound then .error .fuel else .ok s
  | fuel + 1, i, s =>
    if i < bound then do
      let s1 ← body s
      forLt bound body fuel (wrap64 (i + 1)) s1
    else .ok s

/-! ## The writer goroutine of `producer` (lines 73-83) -/

/-- The write end of the pipe to the external process: the bytes it has
accepted so far, in order, and whether `Close` was called. -/
structure Pipe where
  written : List Byte
  closed : Bool

/-- A call of `stdin.Write(b)` or `io.WriteString(stdin, s)`: an open pipe
accepts the bytes; on a closed pipe the call fails and nothing is written
(the code discards the result of the call either way). -/
def Pipe.write (p : Pipe) (b : List Byte) : Pipe :=
  if p.closed then p else { p with written := p.written ++ b }

/-- A call of `stdin.Close()`. -/
def Pipe.close (p : Pipe) : Pipe := { p with closed := true }

/-- What the writer goroutine of one producer acts on: the generator, its
pipe, and the atomic operations it has issued on the shared counters, oldest
first. -/
structure Writer where
  rng : Rand
  stdin : Pipe
  ops : List AtomicOp

/-- A writer goroutine that has not run yet. -/
def Writer.fresh (g : Rand) : Writer :=
  { rng := g, stdin := { written := [], closed := false }, ops := [] }

/-- One iteration of the loop body (lines 75-80). -/
def writeRecord (fl : Flags) (data : List Byte) (w : Writer) : Except Err Writer := do
  let (key, g1) ← randView fl.keySize data w.rng
  let p1 := w.stdin.write key
  let p2 := p1.write (bytesOf ":")
  let (value, g2) ← randView fl.valueSize data g1
  let p3 := p2.write value
  let p4 := p3.write (bytesOf "\n")
  pure { rng := g2, stdin := p4,
         ops := w.ops ++ [AtomicOp.addRecords 1,
                          AtomicOp.addBytes (wrap64 (fl.keySize + fl.valueSize))] }

/-- The goroutine of lines 73-83: the loop over `*records`, then `stdin.Close()`. -/
def writer (fl : Flags) (data : List Byte) (fuel : Nat) (w : Writer) : Except Err Writer := do
  let w1 ← forLt fl.records (writeRecord fl data) fuel 0 w
  pure { w1 with stdin := w1.stdin.close }

/-! ## `printRate` (lines 99-105): the two swaps of one tick -/

/-- The two swaps of one tick (lines 101-102): the counters afterwards and
the pair `(recs, bytes)` handed to `Printf`. -/
def printRateSwaps (c : Counters) : Counters × (Int × Int) :=
  let r := AtomicOp.swapRecords.exec c
  let b := AtomicOp.swapBytes.exec r.1
  (b.1, (r.2, b.2))

/-! ## `main` (lines 107-127) -/

/-- What `main` does to the outside, in order. -/
inductive Event where
  /-- A call of `fmt.Println(s)`. -/
  | println (s : String)
  /-- A call of `wg.Add(d)`. -/
  | wgAdd (d : Int)
  /-- The statement `go producer(&wg)`, with the value `*records` has when
  the goroutine is created. -/
  | goProducer (records : Int)
  /-- The statement `go printRate()`. -/
  | goPrintRate
  /-- The call `wg.Wait()`. -/
  | wgWait
  deriving DecidableEq, Repr

/-- The state `main` acts on: the flag variables and the events so far. -/
structure MainState where
  flags : Flags
  trace : List Event

/-- The start of `main`: parsed flags, nothing done yet. -/
def MainState.init (fl : Flags) : MainState := { flags := fl, trace := [] }

/-- The body of the loop of lines 119-122. -/
def spawnProducer (st : MainState) : Except Err MainState :=
  .ok { st with trace := st.trace ++ [Event.wgAdd 1, Event.goProducer st.flags.records] }

/-- The function `main` (lines 107-127). -/
def main (fuel : Nat) (st : MainState) : Except Err MainState :=
  if st.flags.topic = "" then
    .ok { st with trace := st.trace ++ [Event.println "topic not specified"] }
  else do
    let st1 : MainState :=
      if st.flags.records ≤ 0 then { st with flags := { st.flags with records := MaxInt32 } }
      else st
    let st2 ← forLt st1.flags.producers spawnProducer fuel 0 st1
    pure { st2 with trace := st2.trace ++ [Event.goPrintRate, Event.wgWait] }

/-- The number of `go producer(&wg)` statements in a trace. -/
def producersStarted (tr : List Event) : Nat :=
  tr.countP (fun e => match e with | .goProducer _ => true | _ => false)

/-- The number of `go printRate()` statements in a trace. -/
def reportersStarted (tr : List Event) : Nat := tr.count Event.goPrintRate

/-- The sum of the arguments of the `wg.Add` calls in a trace. -/
def wgAdded (tr : List Event) : Int :=
  (tr.map (fun e => match e with | .wgAdd d => d | _ => 0)).sum

/-! ## Notions used to state the properties of the writer -/

/-- The record `key:value\n` as it goes down the pipe. -/
def frame (key value : List Byte) : List Byte :=
  key ++ bytesOf ":" ++ value ++ bytesOf "\n"

/-- The list `v` is a view of `n` bytes of `data`: the contiguous bytes
`data[s .. s+n)` for a start offset `s < len(data) - n`. -/
def IsView (data : List Byte) (n : Int) (v : List Byte) : Prop :=
  ∃ s : Nat, (s : Int) < (data.length : Int) - n ∧ v = (data.drop s).take n.toNat

/-- The atomic operations of one iteration of the writer's loop (lines 79-80). -/
def recordOps (fl : Flags) : List AtomicOp :=
  [AtomicOp.addRecords 1, AtomicOp.addBytes (wrap64 (fl.keySize + fl.valueSize))]

/-- The atomic operations the writer goroutine of one producer issues when it
runs with generator `g` (none if it panics). -/
def writerOps (fl : Flags) (data : List Byte) (fuel : Nat) (g : Rand) : List AtomicOp :=
  match writer fl data fuel (Writer.fresh g) with
  | .ok w => w.ops
  | .error _ => []

/-- The flags of the end-to-end scenario: topic `t1`, 2 producers, 100
records, 4-byte keys and values. -/
def scenarioFlags : Flags :=
  { Flags.default with topic := "t1", producers := 2, records := 100, keySize := 4,
                       valueSize := 4 }

/-- A small pool over the alphabet, for concrete runs. -/
def samplePool : List Byte := bytesOf "0123456789abcdef"

/-- A generator state for concrete runs: the `i`-th raw outcome is `7 * i + 3`. -/
def sampleRand : Rand := { draw := fun i => 7 * i + 3, pos := 0 }

/-! ## The reader's side of the framing

The reader of the pipe is the external process, not code of `main.go`; the
functions below decode the framing `key:value\n` the way the claims word it:
cut the stream at each newline, cut a line at its first colon. -/

/-- The delimiter between key and value. -/
def colon : Byte := byteOf ':'

/-- The delimiter after a record. -/
def newline : Byte := byteOf '\n'

/-- Cut a stream at each newline; `cur` is the line read so far.  A tail
without newline is a last line. -/
def splitLinesAux : List Byte → List Byte → List (List Byte)
  | [], cur => if cur = [] then [] else [cur]
  | b :: rest, cur =>
    if b = newline then cur :: splitLinesAux rest []
    else splitLinesAux rest (cur ++ [b])

/-- The lines of a stream, without their newline. -/
def splitLines (stream : List Byte) : List (List Byte) := splitLinesAux stream []

/-- Cut a line at the first occurrence of `sep`; `none` when it has none. -/
def splitAtFirst (sep : Byte) : List Byte → Option (List Byte × List Byte)
  | [] => none
  | b :: rest =>
    if b = sep then some ([], rest)
    else (splitAtFirst sep rest).map (fun p => (b :: p.1, p.2))

/-- Strip the one trailing newline of a record; `none` when there is none. -/
def stripNewline (r : List Byte) : Option (List Byte) :=
  if r.getLast? = some newline then some r.dropLast else none

/-- Decode one record: strip the trailing newline, split at the first colon. -/
def decodeRecord (r : List Byte) : Option (List Byte × List Byte) :=
  (stripNewline r).bind (splitAtFirst colon)

/-! ## Executions of several goroutines on the counters -/

/-- The sequence `tr` is an interleaving of the operation sequences `progs`
of the workers: it is built by repeatedly taking the next operation of some
worker, until every worker is done. -/
inductive Interleaving : List (List AtomicOp) → List AtomicOp → Prop where
  /-- Every worker is done. -/
  | done {progs : List (List AtomicOp)} :
      (∀ p ∈ progs, p = []) → Interleaving progs []
  /-- Worker `i` performs its next operation `op`. -/
  | step {progs : List (List AtomicOp)} {tr : List AtomicOp} (i : Nat) (op : AtomicOp)
      (rest : List AtomicOp) :
      progs.get? i = some (op :: rest) → Interleaving (progs.set i rest) tr →
      Interleaving progs (op :: tr)

/-- The atomic operations one iteration of the writer's loop issues from the
state `w` (lines 79-80); an error when a view panics first. -/
def iterationOps (fl : Flags) (data : List Byte) (w : Writer) : Except Err (List AtomicOp) :=
  (writeRecord fl data w).map (fun w1 => w1.ops.drop w.ops.length)

/-- A producer step: an atomic add issued by an iteration of the writer's
loop, both views of which succeeded. -/
def IsProducerOp (fl : Flags) (data : List Byte) (op : AtomicOp) : Prop :=
  ∃ (w : Writer) (ops : List AtomicOp), iterationOps fl data w = .ok ops ∧ op ∈ ops

/-- A reporter step: one of the two swaps of `printRate`. -/
def IsReporterOp (op : AtomicOp) : Prop :=
  op = AtomicOp.swapRecords ∨ op = AtomicOp.swapBytes

/-- In the execution of `ops` from the counters `c`, no `atomic.AddInt64`
leaves the range of `int64`. -/
def NoOverflow : List AtomicOp → Counters → Prop
  | [], _ => True
  | op :: rest, c =>
    (match op with
      | .addRecords d => IsInt64 (c.rateRecords + d)
      | .addBytes d => IsInt64 (c.rateBytes + d)
      | _ => True) ∧
    NoOverflow rest (op.exec c).1

/-- Flags of a run whose counters overflow: `-n 4611686018427387904 -k 1 -v 1`
(2^62 records of 2 bytes each per producer). -/
def overflowFlags : Flags :=
  { scenarioFlags with records := 4611686018427387904, keySize := 1, valueSize := 1 }

/-- The operations of the two producers of `overflowFlags`, each run to
completion. -/
def overflowProgs : List (List AtomicOp) :=
  [writerOps overflowFlags samplePool 4611686018427387904 sampleRand,
   writerOps overflowFlags samplePool 4611686018427387904 sampleRand.next]

instance NoOverflow.instDecidable : (tr : List AtomicOp) → (c : Counters) →
    Decidable (NoOverflow tr c)
  | [], _ => isTrue True.intro
  | .addRecords d :: rest, c =>
    @instDecidableAnd (IsInt64 (c.rateRecords + d)) _ inferInstance
      (NoOverflow.instDecidable rest _)
  | .addBytes d :: rest, c =>
    @instDecidableAnd (IsInt64 (c.rateBytes + d)) _ inferInstance
      (NoOverflow.instDecidable rest _)
  | .swapRecords :: rest, _ =>
    @instDecidableAnd True _ inferInstance (NoOverflow.instDecidable rest _)
  | .swapBytes :: rest, _ =>
    @instDecidableAnd True _ inferInstance (NoOverflow.instDecidable rest _)

/-- The operations of one producer of `overflowFlags` run to completion, with
no tick of the reporter in between. -/
def overflowTrace : List AtomicOp :=
  writerOps overflowFlags samplePool 4611686018427387904 sampleRand

/-! ## `float64` arithmetic and `%0.2f` (line 103)

`printRate` converts the two swapped-out counters to `float64`, divides them
by the constants `1024*1024` and `1000`, and prints them with `%0.2f`.  The
three operations are embedded with their IEEE 754 semantics: conversion and
division round to the nearest `float64`, ties to even; `%0.2f` prints the
exact decimal expansion rounded to two places, ties to even.  Every value
that occurs here has a magnitude in `[2^-10, 2^63]` or is zero, so exponent
range, subnormals, infinities and NaN do not arise and are not embedded. -/

/-- A finite `float64`, as the dyadic number `mant * 2^exp`. -/
structure Float64 where
  mant : Int
  exp : Int
  deriving DecidableEq, Repr

/-- The number a `Float64` stands for. -/
def Float64.toRat (x : Float64) : ℚ := (x.mant : ℚ) * (2 : ℚ) ^ x.exp

/-- The quotient `a / b` rounded to the nearest natural number, ties to even. -/
def divRoundEven (a b : Nat) : Nat :=
  if 2 * (a % b) < b then a / b
  else if b < 2 * (a % b) then a / b + 1
  else if (a / b) % 2 = 0 then a / b
  else a / b + 1

/-- The position of the leading bit of `n`, found by halving at most `fuel`
times. -/
def log2Fuel : Nat → Nat → Nat
  | 0, _ => 0
  | fuel + 1, n => if n < 2 then 0 else log2Fuel fuel (n / 2) + 1

/-- The position of the leading bit of `n`: `2^(ilog2 n) <= n < 2^(ilog2 n + 1)`
for `n > 0`. -/
def ilog2 (n : Nat) : Nat := log2Fuel n n

/-- Numerator and denominator of `(a / b) / 2^e`. -/
def scaled (a b : Nat) (e : Int) : Nat × Nat :=
  if 0 ≤ e then (a, b * 2 ^ e.toNat) else (a * 2 ^ (-e).toNat, b)

/-- The nearest `float64` to the positive rational `a / b`, as significand
and exponent: the exponent is chosen so that the scaled quotient lies in
`[2^52, 2^53)`, then the quotient is rounded to an integer. -/
def roundPos (a b : Nat) : Nat × Int :=
  let e1 : Int := (ilog2 a : Int) - (ilog2 b : Int) - 53
  if (scaled a b e1).1 < 2 ^ 53 * (scaled a b e1).2 then
    (divRoundEven (scaled a b e1).1 (scaled a b e1).2, e1)
  else
    (divRoundEven (scaled a b (e1 + 1)).1 (scaled a b (e1 + 1)).2, e1 + 1)

/-- The nearest `float64` to the rational `num / den` (`den > 0`). -/
def Float64.round (num : Int) (den : Nat) : Float64 :=
  if num = 0 then { mant := 0, exp := 0 }
  else
    { mant := if num < 0 then -((roundPos num.natAbs den).1 : Int)
              else ((roundPos num.natAbs den).1 : Int)
      exp := (roundPos num.natAbs den).2 }

/-- Go's conversion `float64(x)` of an `int64`. -/
def Float64.ofInt64 (x : Int) : Float64 := Float64.round x 1

/-- Go's `x / c` for a `float64` `x` and a positive integer constant `c` that
is a `float64` itself (`1024*1024` and `1000` in `printRate`). -/
def Float64.divConst (x : Float64) (c : Nat) : Float64 :=
  if 0 ≤ x.exp then Float64.round (x.mant * 2 ^ x.exp.toNat) c
  else Float64.round x.mant (c * 2 ^ (-x.exp).toNat)

/-- The magnitude of `x` in hundredths, rounded to the nearest, ties to even:
the digits `%0.2f` prints. -/
def Float64.hundredths (x : Float64) : Nat :=
  if 0 ≤ x.exp then x.mant.natAbs * 2 ^ x.exp.toNat * 100
  else divRoundEven (x.mant.natAbs * 100) (2 ^ (-x.exp).toNat)

/-- The decimal digit `d` as a character. -/
def digitChar (d : Nat) : Char := Char.ofNat (48 + d % 10)

/-- The decimal digits of `n`, most significant first; `fuel` bounds their
number beyond the first. -/
def natDigits : Nat → Nat → List Char
  | 0, n => [digitChar n]
  | fuel + 1, n => if n < 10 then [digitChar n] else natDigits fuel (n / 10) ++ [digitChar n]

/-- Go's `fmt.Sprintf("%0.2f", x)`: sign, integer part, point, two decimals
(the flag `0` pads to a width, and no width is given). -/
def fmt2f (x : Float64) : String :=
  String.mk ((if x.mant < 0 then ['-'] else []) ++
    natDigits (x.hundredths / 100) (x.hundredths / 100) ++ ['.'] ++
    [digitChar (x.hundredths / 10), digitChar x.hundredths])

/-- The two figures of a rate line (line 103): `float64(bytes)/(1024*1024)`
and `float64(recs)/1000`. -/
def mibFigure (bytes : Int) : Float64 := (Float64.ofInt64 bytes).divConst (1024 * 1024)

/-- The figure `float64(recs)/1000` of a rate line (line 103). -/
def kRecordsFigure (recs : Int) : Float64 := (Float64.ofInt64 recs).divConst 1000

/-- The line `fmt.Printf("%0.2f MiB/s; %0.2fk records/s\n", ...)` of line 103. -/
def rateLine (recs bytes : Int) : String :=
  fmt2f (mibFigure bytes) ++ " MiB/s; " ++ fmt2f (kRecordsFigure recs) ++ "k records/s\n"

/-- One tick of `printRate` (lines 101-103): the counters afterwards and the
line printed. -/
def printRateTick (c : Counters) : Counters × String :=
  ((printRateSwaps c).1, rateLine (printRateSwaps c).2.1 (printRateSwaps c).2.2)

/-! # Theorems -/

/-! ## Machine integers, `rand.Intn`, slicing -/

theorem wrap64_eq_self {x : Int} (h : IsInt64 x) : wrap64 x = x := by
  unfold IsInt64 at h
  unfold wrap64
  omega

theorem wrap64_isInt64 (x : Int) : IsInt64 (wrap64 x) := by
  unfold IsInt64 wrap64
  omega

theorem wrap64_add_wrap64 (a b : Int) : wrap64 (wrap64 a + b) = wrap64 (a + b) := by
  unfold wrap64
  omega

theorem Intn_of_pos {n : Int} (g : Rand) (h : 0 < n) :
    Rand.Intn n g = .ok (((g.draw g.pos % n.toNat : Nat) : Int), g.next) := by
  unfold Rand.Intn
  rw [if_neg (not_le.mpr h)]

theorem Intn_of_nonpos {n : Int} (g : Rand) (h : n ≤ 0) :
    Rand.Intn n g = .error .intnInvalidArg := by
  unfold Rand.Intn
  rw [if_pos h]

theorem sliceOf_of_bounds (data : List Byte) {lo hi : Int}
    (h0 : 0 ≤ lo) (h1 : lo ≤ hi) (h2 : hi ≤ (data.length : Int)) :
    sliceOf data lo hi = .ok ((data.drop lo.toNat).take (hi - lo).toNat) := by
  unfold sliceOf
  rw [if_pos ⟨h0, h1, h2⟩]

theorem viewStart_lt {n : Int} (data : List Byte) (g : Rand) (hn : n < (data.length : Int)) :
    (viewStart n data g : Int) < (data.length : Int) - n := by
  unfold viewStart
  have hpos : 0 < ((data.length : Int) - n).toNat := by omega
  have := Nat.mod_lt (g.draw g.pos) hpos
  omega

theorem randView_of_lt (data : List Byte) {n : Int} (g : Rand)
    (hlen : IsInt64 (data.length : Int)) (h0 : 0 ≤ n) (hn : n < (data.length : Int)) :
    randView n data g =
      .ok ((data.drop (viewStart n data g)).take n.toNat, g.next) := by
  have hs := viewStart_lt data g hn
  unfold IsInt64 at hlen
  have hw : wrap64 ((data.length : Int) - n) = (data.length : Int) - n :=
    wrap64_eq_self ⟨by omega, by omega⟩
  have hpos : 0 < (data.length : Int) - n := by omega
  have hw2 : wrap64 ((viewStart n data g : Int) + n) = (viewStart n data g : Int) + n :=
    wrap64_eq_self ⟨by omega, by omega⟩
  unfold randView
  rw [hw, Intn_of_pos g hpos]
  show (do
    let v ← sliceOf data (viewStart n data g : Int) (wrap64 ((viewStart n data g : Int) + n))
    pure (v, g.next)) = _
  rw [hw2, sliceOf_of_bounds data (by omega) (by omega) (by omega)]
  show Except.ok _ = Except.ok _
  congr 3
  omega

/-! ## `randView` (claims C1, C2) -/

theorem mem_of_mem_view {data : List Byte} (s n : Nat) {b : Byte}
    (h : b ∈ (data.drop s).take n) : b ∈ data :=
  List.mem_of_mem_drop (List.mem_of_mem_take h)

theorem length_view (data : List Byte) {s n : Nat} (h : s + n ≤ data.length) :
    ((data.drop s).take n).length = n := by
  rw [List.length_take, List.length_drop]
  omega

theorem get?_view (data : List Byte) (s n i : Nat) (h : i < n) :
    ((data.drop s).take n).get? i = data.get? (s + i) := by
  rw [List.get?_eq_getElem?, List.get?_eq_getElem?, List.getElem?_take_of_lt h, List.getElem?_drop]

/-- C1: for every pool of size S, every view size n with 0 <= n < S and
every outcome of the generator, `randView n pool` succeeds and returns the n
contiguous bytes `pool[s .. s+n)` for a start offset s with 0 <= s < S-n
(so s <= S-n); every returned byte is a byte of the pool. -/
theorem randView_returns_view (pool : List Byte) (n : Int) (g : Rand)
    (hlen : IsInt64 (pool.length : Int)) (h0 : 0 ≤ n) (hn : n < (pool.length : Int)) :
    ∃ s : Nat, (s : Int) < (pool.length : Int) - n ∧ (s : Int) ≤ (pool.length : Int) - n ∧
      randView n pool g = .ok ((pool.drop s).take n.toNat, g.next) ∧
      (((pool.drop s).take n.toNat).length : Int) = n ∧
      (∀ i : Nat, (i : Int) < n →
        ((pool.drop s).take n.toNat).get? i = pool.get? (s + i)) ∧
      ∀ b ∈ (pool.drop s).take n.toNat, b ∈ pool := by
  have hs := viewStart_lt pool g hn
  refine ⟨viewStart n pool g, hs, le_of_lt hs, randView_of_lt pool g hlen h0 hn, ?_, ?_, ?_⟩
  · rw [length_view pool (by omega)]
    omega
  · intro i hi
    exact get?_view pool _ _ i (by omega)
  · intro b hb
    exact mem_of_mem_view _ _ hb

/-- A 4-byte view of the 16-byte sample pool. -/
theorem randView_returns_view_witness :
    IsInt64 (samplePool.length : Int) ∧ (0 : Int) ≤ 4 ∧ (4 : Int) < (samplePool.length : Int) ∧
    ∃ s : Nat, (s : Int) < (samplePool.length : Int) - 4 ∧
      randView 4 samplePool sampleRand =
        .ok ((samplePool.drop s).take (4 : Int).toNat, sampleRand.next) := by
  refine ⟨by decide, by decide, by decide, ?_⟩
  obtain ⟨s, hs, _, hrun, _⟩ :=
    randView_returns_view samplePool 4 sampleRand (by decide) (by decide) (by decide)
  exact ⟨s, hs, hrun⟩

/-- C2: for every pool of size S and every n >= S (S = 0 included),
`randView n pool` panics on the non-positive argument of `rand.Intn`, for
every generator state; the panic is that of `rand.Intn` itself, raised
before the slice expression is evaluated, so no slice is returned. -/
theorem randView_panics_of_ge (pool : List Byte) (n : Int) (g : Rand)
    (hlen : IsInt64 (pool.length : Int)) (hn : IsInt64 n) (h : (pool.length : Int) ≤ n) :
    Rand.Intn (wrap64 ((pool.length : Int) - n)) g = .error .intnInvalidArg ∧
      randView n pool g = .error .intnInvalidArg ∧
      (∀ r, randView n pool g ≠ .ok r) ∧ randView n pool g ≠ .error .sliceBounds := by
  unfold IsInt64 at hlen hn
  have hw : wrap64 ((pool.length : Int) - n) = (pool.length : Int) - n :=
    wrap64_eq_self ⟨by omega, by omega⟩
  have hI : Rand.Intn (wrap64 ((pool.length : Int) - n)) g = .error .intnInvalidArg := by
    rw [hw]
    exact Intn_of_nonpos g (by omega)
  have hv : randView n pool g = .error .intnInvalidArg := by
    unfold randView
    rw [hI]
    rfl
  refine ⟨hI, hv, ?_, ?_⟩
  · intro r
    rw [hv]
    exact fun hc => by cases hc
  · rw [hv]
    exact fun hc => by cases hc

/-- A view as large as the pool, and any view of the empty pool, panic. -/
theorem randView_panics_of_ge_witness :
    IsInt64 (samplePool.length : Int) ∧ IsInt64 16 ∧ (samplePool.length : Int) ≤ 16 ∧
    randView 16 samplePool sampleRand = .error .intnInvalidArg ∧
    randView 0 [] sampleRand = .error .intnInvalidArg :=
  ⟨by decide, by decide, by decide,
    (randView_panics_of_ge samplePool 16 sampleRand (by decide) (by decide) (by decide)).2.1,
    (randView_panics_of_ge [] 0 sampleRand (by decide) (by decide) (by decide)).2.1⟩

/-! ## `randBytes` (claim C5) -/

theorem ascii_length : ascii.length = 62 := by decide

theorem indexOf_ascii (j : Nat) (h : j < 62) :
    ∃ c, indexOf ascii (j : Int) = .ok c ∧ c ∈ ascii := by
  have hj : j < ascii.length := by rw [ascii_length]; exact h
  refine ⟨ascii.get ⟨j, hj⟩, ?_, List.get_mem _ _ _⟩
  unfold indexOf
  rw [if_pos (by omega), Int.toNat_ofNat, List.get?_eq_get hj]

theorem take_set_self : ∀ (l : List Byte) (i : Nat) (a : Byte),
    (l.set i a).take i = l.take i
  | [], _, _ => by simp
  | _ :: _, 0, _ => by simp
  | _ :: l, i + 1, a => by simp [take_set_self l i a]

theorem fillFrom_spec (todo : Nat) :
    ∀ (i : Nat) (b : List Byte) (g : Rand), i + todo = b.length →
      (∀ x ∈ b.take i, x ∈ ascii) →
      ∃ b' g', fillFrom todo i b g = .ok (b', g') ∧ b'.length = b.length ∧
        ∀ x ∈ b', x ∈ ascii := by
  induction todo with
  | zero =>
    intro i b g hlen hpre
    refine ⟨b, g, rfl, rfl, ?_⟩
    have : b.take i = b := List.take_of_length_le (by omega)
    rw [this] at hpre
    exact hpre
  | succ todo ih =>
    intro i b g hlen hpre
    have hlt : g.draw g.pos % 62 < 62 := Nat.mod_lt _ (by decide)
    obtain ⟨c, hc, hmem⟩ := indexOf_ascii _ hlt
    have hI : Rand.Intn (ascii.length : Int) g =
        .ok (((g.draw g.pos % 62 : Nat) : Int), g.next) := by
      rw [ascii_length]
      exact Intn_of_pos g (by decide)
    have hstep : fillFrom (todo + 1) i b g = fillFrom todo (i + 1) (b.set i c) g.next := by
      show (do
        let (j, g1) ← Rand.Intn (ascii.length : Int) g
        let c ← indexOf ascii j
        fillFrom todo (i + 1) (b.set i c) g1) = _
      rw [hI]
      show (do
        let c ← indexOf ascii ((g.draw g.pos % 62 : Nat) : Int)
        fillFrom todo (i + 1) (b.set i c) g.next) = _
      rw [hc]
      rfl
    have hpre' : ∀ x ∈ (b.set i c).take (i + 1), x ∈ ascii := by
      intro x hx
      rw [List.take_succ, List.mem_append] at hx
      rcases hx with hx | hx
      · rw [take_set_self] at hx
        exact hpre x hx
      · rw [List.getElem?_set_self (by omega)] at hx
        simp at hx
        rw [hx]
        exact hmem
    obtain ⟨b', g', hrun, hl, hall⟩ := ih (i + 1) (b.set i c) g.next
      (by rw [List.length_set]; omega) hpre'
    refine ⟨b', g', ?_, ?_, hall⟩
    · rw [hstep, hrun]
    · rw [hl, List.length_set]

set_option maxRecDepth 1000000 in
theorem mem_ascii_iff :
    ∀ x : Byte, x ∈ ascii ↔
      ((48 ≤ x.val ∧ x.val ≤ 57) ∨ (97 ≤ x.val ∧ x.val ≤ 122) ∨ (65 ≤ x.val ∧ x.val ≤ 90)) := by
  decide

/-- The function `randBytes` on a size within `[0, maxAlloc]`: it succeeds,
with a buffer of that size over the alphabet. -/
theorem randBytes_spec (n : Int) (g : Rand) (h0 : 0 ≤ n) (hmax : n ≤ (maxAlloc : Int)) :
    ∃ b g', randBytes n g = .ok (b, g') ∧ (b.length : Int) = n ∧ ∀ x ∈ b, x ∈ ascii := by
  obtain ⟨b', g', hrun, hl, hall⟩ :=
    fillFrom_spec (List.replicate n.toNat (0 : Byte)).length 0
      (List.replicate n.toNat (0 : Byte)) g (by omega) (by simp)
  refine ⟨b', g', ?_, ?_, hall⟩
  · unfold randBytes
    rw [if_neg (by omega)]
    exact hrun
  · rw [hl, List.length_replicate]
    omega

/-- A result of `randBytes` is what the fill loop returns on a fresh buffer
of a size within `[0, maxAlloc]`. -/
theorem randBytes_ok_inv {m : Int} {g0 g1 : Rand} {pool : List Byte}
    (h : randBytes m g0 = .ok (pool, g1)) :
    0 ≤ m ∧ m ≤ (maxAlloc : Int) ∧ (pool.length : Int) = m ∧ ∀ x ∈ pool, x ∈ ascii := by
  by_cases hm : m < 0 ∨ (maxAlloc : Int) < m
  · unfold randBytes at h
    rw [if_pos hm] at h
    cases h
  · have h0 : 0 ≤ m := by omega
    have hmax : m ≤ (maxAlloc : Int) := by omega
    obtain ⟨b', g', hrun, hl, hall⟩ := randBytes_spec m g0 h0 hmax
    rw [hrun] at h
    cases h
    exact ⟨h0, hmax, hl, hall⟩

/-- C5 (amended): for every size n with 0 <= n <= 2^48 (the largest
allocation of the Go runtime) and every outcome of the generator,
`randBytes n` returns a buffer of exactly n bytes, each a character of the
alphabet; the alphabet has exactly 62 distinct characters, the 10 digits,
the 26 lowercase and the 26 uppercase ASCII letters, and no index drawn by
`rand.Intn(62)` is out of its range (no panic). -/
theorem randBytes_alphabet (n : Int) (g : Rand) (h0 : 0 ≤ n) (hmax : n ≤ (maxAlloc : Int)) :
    (∃ b g', randBytes n g = .ok (b, g') ∧ (b.length : Int) = n ∧ ∀ x ∈ b, x ∈ ascii) ∧
      ascii.length = 62 ∧ ascii.Nodup ∧
      ascii = bytesOf "0123456789" ++ bytesOf "abcdefghijklmnopqrstuvwxyz" ++
        bytesOf "ABCDEFGHIJKLMNOPQRSTUVWXYZ" ∧
      (bytesOf "0123456789").length = 10 ∧
      (bytesOf "abcdefghijklmnopqrstuvwxyz").length = 26 ∧
      (bytesOf "ABCDEFGHIJKLMNOPQRSTUVWXYZ").length = 26 ∧
      ∀ x : Byte, x ∈ ascii ↔
        ((48 ≤ x.val ∧ x.val ≤ 57) ∨ (97 ≤ x.val ∧ x.val ≤ 122) ∨
          (65 ≤ x.val ∧ x.val ≤ 90)) := by
  exact ⟨randBytes_spec n g h0 hmax, ascii_length, by decide, by decide, by decide,
    by decide, by decide, mem_ascii_iff⟩

/-- A pool of 10 bytes. -/
theorem randBytes_alphabet_witness :
    (0 : Int) ≤ 10 ∧ (10 : Int) ≤ (maxAlloc : Int) ∧
    ∃ b g', randBytes 10 sampleRand = .ok (b, g') ∧ (b.length : Int) = 10 ∧
      ∀ x ∈ b, x ∈ ascii :=
  ⟨by decide, by decide, (randBytes_alphabet 10 sampleRand (by decide) (by decide)).1⟩

/-- C5 as stated fails above the allocation limit: for n = 2^48 + 1
(`-r 281474976710657`) the call `make([]byte, n)` of line 36 panics with
"makeslice: len out of range" for every generator state, so `randBytes`
returns no buffer. -/
theorem randBytes_panics_above_limit :
    (0 : Int) ≤ 281474976710657 ∧
    (∀ g : Rand, randBytes 281474976710657 g = .error .makesliceLen) ∧
    ¬ ∃ b g', randBytes 281474976710657 sampleRand = .ok (b, g') ∧
      (b.length : Int) = 281474976710657 ∧ ∀ x ∈ b, x ∈ ascii := by
  have hpanic : ∀ g : Rand, randBytes 281474976710657 g = .error .makesliceLen := by
    intro g
    unfold randBytes
    rw [if_pos (Or.inr (by decide))]
  refine ⟨by decide, hpanic, ?_⟩
  rintro ⟨b, g', hrun, _⟩
  rw [hpanic sampleRand] at hrun
  cases hrun

/-! ## Counted loops: total correctness -/

theorem forLt_zero {σ : Type} (bound : Int) (body : σ → Except Err σ) (i : Int) (s : σ) :
    forLt bound body 0 i s = if i < bound then .error .fuel else .ok s := rfl

theorem forLt_succ {σ : Type} (bound : Int) (body : σ → Except Err σ) (fuel : Nat)
    (i : Int) (s : σ) :
    forLt bound body (fuel + 1) i s =
      if i < bound then (body s).bind (forLt bound body fuel (wrap64 (i + 1))) else .ok s := rfl

/-- Total correctness of a counted loop: if the body succeeds on every state
satisfying `P k` and establishes `P (k + 1)`, then with enough fuel the loop
started at index `i` runs `bound - i` times and ends in a state satisfying
`P` for the final count. -/
theorem forLt_rule {σ : Type} (bound : Int) (body : σ → Except Err σ) (P : Nat → σ → Prop)
    (hbound : IsInt64 bound)
    (hbody : ∀ k s, P k s → ∃ s', body s = .ok s' ∧ P (k + 1) s') :
    ∀ (fuel : Nat) (i : Int) (k : Nat) (s : σ), 0 ≤ i → (bound - i).toNat ≤ fuel → P k s →
      ∃ s', forLt bound body fuel i s = .ok s' ∧ P (k + (bound - i).toNat) s' := by
  intro fuel
  induction fuel with
  | zero =>
    intro i k s _ hfuel hP
    have hnot : ¬ i < bound := by omega
    refine ⟨s, ?_, ?_⟩
    · rw [forLt_zero, if_neg hnot]
    · have : (bound - i).toNat = 0 := by omega
      rw [this]
      exact hP
  | succ fuel ih =>
    intro i k s hi hfuel hP
    by_cases hlt : i < bound
    · obtain ⟨s1, hs1, hP1⟩ := hbody k s hP
      unfold IsInt64 at hbound
      have hw : wrap64 (i + 1) = i + 1 := wrap64_eq_self ⟨by omega, by omega⟩
      obtain ⟨s', hrun, hP'⟩ := ih (i + 1) (k + 1) s1 (by omega) (by omega) hP1
      refine ⟨s', ?_, ?_⟩
      · rw [forLt_succ, if_pos hlt, hs1, hw]
        exact hrun
      · have : k + (bound - i).toNat = k + 1 + (bound - (i + 1)).toNat := by omega
        rw [this]
        exact hP'
    · refine ⟨s, ?_, ?_⟩
      · rw [forLt_succ, if_neg hlt]
      · have : (bound - i).toNat = 0 := by omega
        rw [this]
        exact hP

/-! ## The writer goroutine (claims C3, C4, C6) -/

theorem Pipe.write_of_open (p : Pipe) (b : List Byte) (h : p.closed = false) :
    p.write b = { written := p.written ++ b, closed := false } := by
  cases p with
  | mk wr cl =>
    have hcl : cl = false := h
    subst hcl
    rfl

theorem Pipe.write_of_closed (p : Pipe) (b : List Byte) (h : p.closed = true) :
    p.write b = p := by
  unfold Pipe.write
  rw [if_pos h]

/-- One iteration with sizes within `[0, len(data))` succeeds: it performs
the four writes and issues the two adds. -/
theorem writeRecord_eq (fl : Flags) (data : List Byte) (w : Writer)
    (hlen : IsInt64 (data.length : Int))
    (hk0 : 0 ≤ fl.keySize) (hk : fl.keySize < (data.length : Int))
    (hv0 : 0 ≤ fl.valueSize) (hv : fl.valueSize < (data.length : Int)) :
    writeRecord fl data w = .ok
      { rng := w.rng.next.next
        stdin := (((w.stdin.write
            ((data.drop (viewStart fl.keySize data w.rng)).take fl.keySize.toNat)).write
            (bytesOf ":")).write
            ((data.drop (viewStart fl.valueSize data w.rng.next)).take
              fl.valueSize.toNat)).write (bytesOf "\n")
        ops := w.ops ++ recordOps fl } := by
  unfold writeRecord
  rw [randView_of_lt data w.rng hlen hk0 hk]
  show (do
    let (value, g2) ← randView fl.valueSize data w.rng.next
    pure _) = _
  rw [randView_of_lt data w.rng.next hlen hv0 hv]
  rfl

/-- The key view and the value view one iteration draws with generator `g`,
framed, are appended to an open pipe. -/
theorem writeRecord_ok (fl : Flags) (data : List Byte) (w : Writer)
    (hlen : IsInt64 (data.length : Int))
    (hk0 : 0 ≤ fl.keySize) (hk : fl.keySize < (data.length : Int))
    (hv0 : 0 ≤ fl.valueSize) (hv : fl.valueSize < (data.length : Int))
    (hopen : w.stdin.closed = false) :
    writeRecord fl data w = .ok
      { rng := w.rng.next.next
        stdin :=
          { written := w.stdin.written ++
              frame ((data.drop (viewStart fl.keySize data w.rng)).take fl.keySize.toNat)
                ((data.drop (viewStart fl.valueSize data w.rng.next)).take fl.valueSize.toNat)
            closed := false }
        ops := w.ops ++ recordOps fl } := by
  rw [writeRecord_eq fl data w hlen hk0 hk hv0 hv, Pipe.write_of_open _ _ hopen,
    Pipe.write_of_open _ _ rfl, Pipe.write_of_open _ _ rfl, Pipe.write_of_open _ _ rfl]
  simp only [frame, List.append_assoc]

theorem recordsAdded_append (a b : List AtomicOp) :
    recordsAdded (a ++ b) = recordsAdded a + recordsAdded b := by
  unfold recordsAdded
  rw [List.map_append, List.sum_append]

theorem bytesAdded_append (a b : List AtomicOp) :
    bytesAdded (a ++ b) = bytesAdded a + bytesAdded b := by
  unfold bytesAdded
  rw [List.map_append, List.sum_append]

theorem recordsAdded_replicate (n : Nat) (ops : List AtomicOp) :
    recordsAdded (List.replicate n ops).flatten = (n : Int) * recordsAdded ops := by
  induction n with
  | zero => simp [recordsAdded]
  | succ n ih =>
    rw [List.replicate_succ, List.flatten_cons, recordsAdded_append, ih]
    push_cast
    ring

theorem bytesAdded_replicate (n : Nat) (ops : List AtomicOp) :
    bytesAdded (List.replicate n ops).flatten = (n : Int) * bytesAdded ops := by
  induction n with
  | zero => simp [bytesAdded]
  | succ n ih =>
    rw [List.replicate_succ, List.flatten_cons, bytesAdded_append, ih]
    push_cast
    ring

theorem length_of_isView {data : List Byte} {n : Int} {v : List Byte}
    (h0 : 0 ≤ n) (h : IsView data n v) : (v.length : Int) = n := by
  obtain ⟨s, hs, rfl⟩ := h
  rw [length_view data (by omega)]
  omega

theorem length_frame (key value : List Byte) :
    (frame key value).length = key.length + value.length + 2 := by
  simp [frame, bytesOf, List.length_append]
  omega

theorem length_frames (kvs : List (List Byte × List Byte)) (c : Nat)
    (h : ∀ kv ∈ kvs, (frame kv.1 kv.2).length = c) :
    (kvs.map (fun kv => frame kv.1 kv.2)).flatten.length = kvs.length * c := by
  induction kvs with
  | nil => simp
  | cons kv rest ih =>
    rw [List.map_cons, List.flatten_cons, List.length_append, List.length_cons,
      ih (fun x hx => h x (List.mem_cons_of_mem _ hx)), h kv (List.mem_cons_self _ _)]
    ring

/-- The loop of the writer, from any starting state: with enough fuel it
performs `*records` iterations, each appending one framed record of two
views to the pipe and the two adds to the operations issued. -/
theorem writeLoop_spec (fl : Flags) (data : List Byte) (w0 : Writer) (fuel : Nat)
    (hlen : IsInt64 (data.length : Int)) (hrec : IsInt64 fl.records)
    (hk0 : 0 ≤ fl.keySize) (hk : fl.keySize < (data.length : Int))
    (hv0 : 0 ≤ fl.valueSize) (hv : fl.valueSize < (data.length : Int))
    (hopen : w0.stdin.closed = false) (hfuel : fl.records.toNat ≤ fuel) :
    ∃ (w : Writer) (kvs : List (List Byte × List Byte)),
      forLt fl.records (writeRecord fl data) fuel 0 w0 = .ok w ∧
      kvs.length = fl.records.toNat ∧
      (∀ kv ∈ kvs, IsView data fl.keySize kv.1 ∧ IsView data fl.valueSize kv.2) ∧
      w.stdin.written = w0.stdin.written ++ (kvs.map (fun kv => frame kv.1 kv.2)).flatten ∧
      w.stdin.closed = false ∧
      w.ops = w0.ops ++ (List.replicate fl.records.toNat (recordOps fl)).flatten := by
  have hrule := forLt_rule fl.records (writeRecord fl data)
    (fun k w => ∃ kvs : List (List Byte × List Byte), kvs.length = k ∧
      (∀ kv ∈ kvs, IsView data fl.keySize kv.1 ∧ IsView data fl.valueSize kv.2) ∧
      w.stdin.written = w0.stdin.written ++ (kvs.map (fun kv => frame kv.1 kv.2)).flatten ∧
      w.stdin.closed = false ∧
      w.ops = w0.ops ++ (List.replicate k (recordOps fl)).flatten) hrec
    (by
      intro k w ⟨kvs, hl, hviews, hwr, hcl, hops⟩
      refine ⟨_, writeRecord_ok fl data w hlen hk0 hk hv0 hv hcl, ?_⟩
      refine ⟨kvs ++ [((data.drop (viewStart fl.keySize data w.rng)).take fl.keySize.toNat,
        (data.drop (viewStart fl.valueSize data w.rng.next)).take fl.valueSize.toNat)],
        ?_, ?_, ?_, ?_, ?_⟩
      · rw [List.length_append, hl]
        rfl
      · intro kv hkv
        rw [List.mem_append, List.mem_singleton] at hkv
        rcases hkv with hkv | hkv
        · exact hviews kv hkv
        · rw [hkv]
          exact ⟨⟨_, viewStart_lt data w.rng hk, rfl⟩, ⟨_, viewStart_lt data w.rng.next hv, rfl⟩⟩
      · show w.stdin.written ++ _ = _
        rw [hwr, List.map_append, List.flatten_append, List.append_assoc]
        simp
      · rfl
      · show w.ops ++ _ = _
        rw [hops, List.replicate_succ', List.flatten_append, List.append_assoc]
        simp)
    fuel 0 0 w0 (le_refl 0) (by simpa using hfuel)
    ⟨[], rfl, by simp, by simp, hopen, by simp⟩
  obtain ⟨w, hrun, kvs, hl, hviews, hwr, hcl, hops⟩ := hrule
  simp only [Int.sub_zero, Nat.zero_add] at hl hops
  exact ⟨w, kvs, hrun, hl, hviews, hwr, hcl, hops⟩

theorem writerOps_eq {fl : Flags} {data : List Byte} {fuel : Nat} {g : Rand} {w : Writer}
    (h : writer fl data fuel (Writer.fresh g) = .ok w) : writerOps fl data fuel g = w.ops := by
  unfold writerOps
  rw [h]

/-- The writer goroutine, started fresh: with enough fuel it succeeds, its
pipe holds the framed records of `*records` pairs of views and is closed, and
it has issued `*records` times the two adds. -/
theorem writer_spec (fl : Flags) (data : List Byte) (g : Rand) (fuel : Nat)
    (hlen : IsInt64 (data.length : Int)) (hrec : IsInt64 fl.records)
    (hk0 : 0 ≤ fl.keySize) (hk : fl.keySize < (data.length : Int))
    (hv0 : 0 ≤ fl.valueSize) (hv : fl.valueSize < (data.length : Int))
    (hfuel : fl.records.toNat ≤ fuel) :
    ∃ (w : Writer) (kvs : List (List Byte × List Byte)),
      writer fl data fuel (Writer.fresh g) = .ok w ∧
      kvs.length = fl.records.toNat ∧
      (∀ kv ∈ kvs, IsView data fl.keySize kv.1 ∧ IsView data fl.valueSize kv.2) ∧
      w.stdin.written = (kvs.map (fun kv => frame kv.1 kv.2)).flatten ∧
      w.stdin.closed = true ∧
      w.ops = (List.replicate fl.records.toNat (recordOps fl)).flatten := by
  obtain ⟨w, kvs, hrun, hl, hviews, hwr, _, hops⟩ :=
    writeLoop_spec fl data (Writer.fresh g) fuel hlen hrec hk0 hk hv0 hv rfl hfuel
  refine ⟨{ w with stdin := w.stdin.close }, kvs, ?_, hl, hviews, ?_, rfl, ?_⟩
  · unfold writer
    rw [hrun]
    rfl
  · show w.stdin.written = _
    rw [hwr]
    rfl
  · show w.ops = _
    rw [hops]
    rfl

/-- The pipe stays open during the loop and `Close` is called on the state
the loop ends in. -/
theorem writer_closes_after_loop (fl : Flags) (data : List Byte) (g : Rand) (fuel : Nat)
    (hlen : IsInt64 (data.length : Int)) (hrec : IsInt64 fl.records)
    (hk0 : 0 ≤ fl.keySize) (hk : fl.keySize < (data.length : Int))
    (hv0 : 0 ≤ fl.valueSize) (hv : fl.valueSize < (data.length : Int))
    (hfuel : fl.records.toNat ≤ fuel) :
    ∃ w1 : Writer,
      forLt fl.records (writeRecord fl data) fuel 0 (Writer.fresh g) = .ok w1 ∧
      w1.stdin.closed = false ∧
      writer fl data fuel (Writer.fresh g) = .ok { w1 with stdin := w1.stdin.close } := by
  obtain ⟨w1, _, hrun, _, _, _, hcl, _⟩ :=
    writeLoop_spec fl data (Writer.fresh g) fuel hlen hrec hk0 hk hv0 hv rfl hfuel
  refine ⟨w1, hrun, hcl, ?_⟩
  unfold writer
  rw [hrun]
  rfl

theorem recordOps_eq (fl : Flags) (h : IsInt64 (fl.keySize + fl.valueSize)) :
    recordOps fl = [AtomicOp.addRecords 1, AtomicOp.addBytes (fl.keySize + fl.valueSize)] := by
  unfold recordOps
  rw [wrap64_eq_self h]

theorem sum_map_const {α : Type} (l : List α) (f : α → Int) (c : Int) (h : ∀ x ∈ l, f x = c) :
    (l.map f).sum = (l.length : Int) * c := by
  induction l with
  | nil => simp
  | cons x rest ih =>
    rw [List.map_cons, List.sum_cons, ih (fun y hy => h y (List.mem_cons_of_mem _ hy)),
      h x (List.mem_cons_self _ _), List.length_cons]
    push_cast
    ring

/-- C3: for every records bound N >= 0, key size k and value size v with
0 <= k, v < len(pool), the write loop of one producer writes exactly N
records `key ++ ":" ++ value ++ "\n"` with a k-byte key view and a v-byte
value view of the pool (k+v+2 bytes per record, N*(k+v+2) bytes in total),
then closes the stream (the pipe is still open when the loop ends, holding
all N records, `Close` is called on that state, and afterwards the pipe
accepts nothing), and adds exactly N to the records counter and N*(k+v) to
the bytes counter; P such producers add P*N records in total. -/
theorem writer_writes_all_records (fl : Flags) (pool : List Byte) (fuel : Nat)
    (hpool : pool.length ≤ maxAlloc) (hrec : IsInt64 fl.records) (hN : 0 ≤ fl.records)
    (hk0 : 0 ≤ fl.keySize) (hk : fl.keySize < (pool.length : Int))
    (hv0 : 0 ≤ fl.valueSize) (hv : fl.valueSize < (pool.length : Int))
    (hfuel : fl.records ≤ (fuel : Int)) :
    (∀ g : Rand, ∃ (w : Writer) (kvs : List (List Byte × List Byte)),
      writer fl pool fuel (Writer.fresh g) = .ok w ∧
      (kvs.length : Int) = fl.records ∧
      (∀ kv ∈ kvs, IsView pool fl.keySize kv.1 ∧ IsView pool fl.valueSize kv.2 ∧
        (kv.1.length : Int) = fl.keySize ∧ (kv.2.length : Int) = fl.valueSize ∧
        ((frame kv.1 kv.2).length : Int) = fl.keySize + fl.valueSize + 2) ∧
      w.stdin.written = (kvs.map (fun kv => kv.1 ++ bytesOf ":" ++ kv.2 ++ bytesOf "\n")).flatten ∧
      (w.stdin.written.length : Int) = fl.records * (fl.keySize + fl.valueSize + 2) ∧
      w.stdin.closed = true ∧
      w.ops = (List.replicate fl.records.toNat
        [AtomicOp.addRecords 1, AtomicOp.addBytes (fl.keySize + fl.valueSize)]).flatten ∧
      recordsAdded w.ops = fl.records ∧
      bytesAdded w.ops = fl.records * (fl.keySize + fl.valueSize) ∧
      (∃ w1 : Writer,
        forLt fl.records (writeRecord fl pool) fuel 0 (Writer.fresh g) = .ok w1 ∧
        w1.stdin.closed = false ∧ w1.stdin.written = w.stdin.written ∧
        w = { w1 with stdin := w1.stdin.close }) ∧
      (∀ b : List Byte, w.stdin.write b = w.stdin)) ∧
    ∀ gs : List Rand,
      ((gs.map (writerOps fl pool fuel)).map recordsAdded).sum = (gs.length : Int) * fl.records ∧
      ((gs.map (writerOps fl pool fuel)).map bytesAdded).sum =
        (gs.length : Int) * (fl.records * (fl.keySize + fl.valueSize)) := by
  have hmax : (pool.length : Int) ≤ 281474976710656 := by
    have : pool.length ≤ 281474976710656 := hpool
    omega
  have hlen : IsInt64 (pool.length : Int) := ⟨by omega, by omega⟩
  have hsum : IsInt64 (fl.keySize + fl.valueSize) := ⟨by omega, by omega⟩
  have hone : ∀ g : Rand, ∃ (w : Writer) (kvs : List (List Byte × List Byte)),
      writer fl pool fuel (Writer.fresh g) = .ok w ∧
      (kvs.length : Int) = fl.records ∧
      (∀ kv ∈ kvs, IsView pool fl.keySize kv.1 ∧ IsView pool fl.valueSize kv.2 ∧
        (kv.1.length : Int) = fl.keySize ∧ (kv.2.length : Int) = fl.valueSize ∧
        ((frame kv.1 kv.2).length : Int) = fl.keySize + fl.valueSize + 2) ∧
      w.stdin.written = (kvs.map (fun kv => kv.1 ++ bytesOf ":" ++ kv.2 ++ bytesOf "\n")).flatten ∧
      (w.stdin.written.length : Int) = fl.records * (fl.keySize + fl.valueSize + 2) ∧
      w.stdin.closed = true ∧
      w.ops = (List.replicate fl.records.toNat
        [AtomicOp.addRecords 1, AtomicOp.addBytes (fl.keySize + fl.valueSize)]).flatten ∧
      recordsAdded w.ops = fl.records ∧
      bytesAdded w.ops = fl.records * (fl.keySize + fl.valueSize) := by
    intro g
    obtain ⟨w, kvs, hrun, hl, hviews, hwr, hcl, hops⟩ :=
      writer_spec fl pool g fuel hlen hrec hk0 hk hv0 hv (by omega)
    have hframe : ∀ kv ∈ kvs, (frame kv.1 kv.2).length =
        fl.keySize.toNat + fl.valueSize.toNat + 2 := by
      intro kv hkv
      have h1 := length_of_isView hk0 (hviews kv hkv).1
      have h2 := length_of_isView hv0 (hviews kv hkv).2
      rw [length_frame]
      omega
    refine ⟨w, kvs, hrun, by omega, ?_, hwr, ?_, hcl, ?_, ?_, ?_⟩
    · intro kv hkv
      have h1 := length_of_isView hk0 (hviews kv hkv).1
      have h2 := length_of_isView hv0 (hviews kv hkv).2
      refine ⟨(hviews kv hkv).1, (hviews kv hkv).2, h1, h2, ?_⟩
      rw [hframe kv hkv]
      omega
    · rw [hwr, length_frames kvs _ hframe, hl]
      push_cast
      rw [Int.toNat_of_nonneg hN, Int.toNat_of_nonneg hk0, Int.toNat_of_nonneg hv0]
    · rw [hops, recordOps_eq fl hsum]
    · rw [hops, recordsAdded_replicate, Int.toNat_of_nonneg hN]
      simp [recordOps, recordsAdded, AtomicOp.recordsDelta]
    · rw [hops, bytesAdded_replicate, Int.toNat_of_nonneg hN, recordOps_eq fl hsum]
      simp [bytesAdded, AtomicOp.bytesDelta]
  refine ⟨?_, ?_⟩
  · intro g
    obtain ⟨w, kvs, hrun, h2, h3, h4, h5, h6, h7, h8, h9⟩ := hone g
    obtain ⟨w1, hloop, hopen, hw⟩ :=
      writer_closes_after_loop fl pool g fuel hlen hrec hk0 hk hv0 hv (by omega)
    have hweq : w = { w1 with stdin := w1.stdin.close } := by
      rw [hrun] at hw
      exact Except.ok.inj hw
    refine ⟨w, kvs, hrun, h2, h3, h4, h5, h6, h7, h8, h9, ⟨w1, hloop, hopen, ?_, hweq⟩,
      fun b => Pipe.write_of_closed _ b h6⟩
    rw [hweq]
    rfl
  intro gs
  constructor
  · rw [List.map_map]
    have := sum_map_const gs (recordsAdded ∘ writerOps fl pool fuel) fl.records (by
      intro g _
      obtain ⟨w, _, hrun, _, _, _, _, _, _, hr, _⟩ := hone g
      show recordsAdded (writerOps fl pool fuel g) = _
      rw [writerOps_eq hrun, hr])
    exact this
  · rw [List.map_map]
    have := sum_map_const gs (bytesAdded ∘ writerOps fl pool fuel)
      (fl.records * (fl.keySize + fl.valueSize)) (by
      intro g _
      obtain ⟨w, _, hrun, _, _, _, _, _, _, _, hb⟩ := hone g
      show bytesAdded (writerOps fl pool fuel g) = _
      rw [writerOps_eq hrun, hb])
    exact this

/-- The end-to-end scenario (k = v = 4, N = 100, P = 2): each producer writes
100 lines of 9 bytes, then closes its pipe, and the two producers add 200
records to the counter. -/
theorem writer_writes_all_records_witness :
    samplePool.length ≤ maxAlloc ∧ IsInt64 scenarioFlags.records ∧
    (∃ w : Writer, writer scenarioFlags samplePool 100 (Writer.fresh sampleRand) = .ok w ∧
      (w.stdin.written.length : Int) = 100 * (4 + 4 + 2) ∧ w.stdin.closed = true ∧
      recordsAdded w.ops = 100 ∧
      ∃ w1 : Writer, w1.stdin.closed = false ∧ w1.stdin.written = w.stdin.written ∧
        w = { w1 with stdin := w1.stdin.close }) ∧
    ((([sampleRand, sampleRand.next].map (writerOps scenarioFlags samplePool 100)).map
      recordsAdded).sum = 200) := by
  have h := writer_writes_all_records scenarioFlags samplePool 100 (by decide) (by decide)
    (by decide) (by decide) (by decide) (by decide) (by decide) (by decide)
  refine ⟨by decide, by decide, ?_, ?_⟩
  · obtain ⟨w, kvs, hrun, _, _, _, hlen, hcl, _, hr, _, ⟨w1, _, hopen, hwr, hw⟩, _⟩ :=
      h.1 sampleRand
    exact ⟨w, hrun, hlen, hcl, hr, w1, hopen, hwr, hw⟩
  · exact (h.2 [sampleRand, sampleRand.next]).1

/-! ## `main` (claims C6, C8) -/

/-- The flags `main` leaves behind when the topic is set: `*records` is
replaced by `math.MaxInt32` when it is not positive. -/
theorem main_of_topic (fl : Flags) (fuel : Nat) (htopic : fl.topic ≠ "")
    (hprod : IsInt64 fl.producers) (hfuel : fl.producers.toNat ≤ fuel) :
    main fuel (MainState.init fl) = .ok
      { flags := { fl with records := if fl.records ≤ 0 then MaxInt32 else fl.records }
        trace := (List.replicate fl.producers.toNat
            [Event.wgAdd 1,
             Event.goProducer (if fl.records ≤ 0 then MaxInt32 else fl.records)]).flatten ++
          [Event.goPrintRate, Event.wgWait] } := by
  have hst1 : (if (MainState.init fl).flags.records ≤ 0 then
        ({ MainState.init fl with
            flags := { (MainState.init fl).flags with records := MaxInt32 } } : MainState)
      else MainState.init fl) =
      { flags := { fl with records := if fl.records ≤ 0 then MaxInt32 else fl.records }
        trace := [] } := by
    by_cases h : fl.records ≤ 0
    · simp only [MainState.init, if_pos h]
    · simp only [MainState.init, if_neg h]
  obtain ⟨st2, hrun, hfl2, htr2⟩ := forLt_rule fl.producers spawnProducer
    (fun k st => st.flags =
        { fl with records := if fl.records ≤ 0 then MaxInt32 else fl.records } ∧
      st.trace = (List.replicate k
        [Event.wgAdd 1,
         Event.goProducer (if fl.records ≤ 0 then MaxInt32 else fl.records)]).flatten)
    hprod
    (by
      intro k st ⟨hf, ht⟩
      refine ⟨_, rfl, hf, ?_⟩
      show st.trace ++ _ = _
      rw [ht, hf, List.replicate_succ', List.flatten_append]
      simp)
    fuel 0 0
    { flags := { fl with records := if fl.records ≤ 0 then MaxInt32 else fl.records }
      trace := [] }
    (le_refl 0) (by simpa using hfuel) ⟨rfl, by simp⟩
  simp only [Int.sub_zero, Nat.zero_add] at htr2
  have ht : ¬ (MainState.init fl).flags.topic = "" := htopic
  unfold main
  rw [if_neg ht]
  show (do
    let st2 ← forLt (if (MainState.init fl).flags.records ≤ 0 then
        ({ MainState.init fl with
            flags := { (MainState.init fl).flags with records := MaxInt32 } } : MainState)
      else MainState.init fl).flags.producers spawnProducer fuel 0
      (if (MainState.init fl).flags.records ≤ 0 then
        ({ MainState.init fl with
            flags := { (MainState.init fl).flags with records := MaxInt32 } } : MainState)
      else MainState.init fl)
    pure { st2 with trace := st2.trace ++ [Event.goPrintRate, Event.wgWait] }) = _
  rw [hst1, hrun]
  show Except.ok _ = Except.ok _
  congr 1
  cases st2 with
  | mk f t =>
    simp only at hfl2 htr2
    rw [hfl2, htr2]

/-- With an empty topic `main` prints the message and returns. -/
theorem main_of_no_topic (fl : Flags) (fuel : Nat) (htopic : fl.topic = "") :
    main fuel (MainState.init fl) = .ok
      { flags := fl, trace := [Event.println "topic not specified"] } := by
  have ht : (MainState.init fl).flags.topic = "" := htopic
  unfold main
  rw [if_pos ht]
  rfl

theorem producersStarted_spawns (n : Nat) (r : Int) (tail : List Event) :
    producersStarted ((List.replicate n [Event.wgAdd 1, Event.goProducer r]).flatten ++ tail) =
      n + producersStarted tail := by
  induction n with
  | zero => simp [producersStarted]
  | succ n ih =>
    unfold producersStarted at ih ⊢
    rw [List.replicate_succ, List.flatten_cons, List.append_assoc, List.countP_append, ih]
    simp [List.countP_cons]
    omega

theorem reportersStarted_spawns (n : Nat) (r : Int) (tail : List Event) :
    reportersStarted ((List.replicate n [Event.wgAdd 1, Event.goProducer r]).flatten ++ tail) =
      reportersStarted tail := by
  induction n with
  | zero => simp [reportersStarted]
  | succ n ih =>
    unfold reportersStarted at ih ⊢
    rw [List.replicate_succ, List.flatten_cons, List.append_assoc, List.count_append, ih]
    simp [List.count_cons]

theorem wgAdded_spawns (n : Nat) (r : Int) (tail : List Event) :
    wgAdded ((List.replicate n [Event.wgAdd 1, Event.goProducer r]).flatten ++ tail) =
      (n : Int) + wgAdded tail := by
  induction n with
  | zero => simp [wgAdded]
  | succ n ih =>
    unfold wgAdded at ih ⊢
    rw [List.replicate_succ, List.flatten_cons, List.append_assoc, List.map_append,
      List.sum_append, ih]
    simp
    omega

theorem mem_spawns {n : Nat} {r : Int} {e : Event}
    (h : e ∈ (List.replicate n [Event.wgAdd 1, Event.goProducer r]).flatten ++
      [Event.goPrintRate, Event.wgWait]) :
    e = Event.wgAdd 1 ∨ e = Event.goProducer r ∨ e = Event.goPrintRate ∨ e = Event.wgWait := by
  rw [List.mem_append, List.mem_flatten] at h
  rcases h with ⟨l, hl, he⟩ | h
  · rw [List.mem_replicate] at hl
    rw [hl.2] at he
    simp at he
    rcases he with he | he
    · exact Or.inl he
    · exact Or.inr (Or.inl he)
  · simp at h
    rcases h with h | h
    · exact Or.inr (Or.inr (Or.inl h))
    · exact Or.inr (Or.inr (Or.inr h))

/-- C8: `main` validates the topic before starting anything.  With the empty
topic it prints "topic not specified" and returns having started no producer
pipeline and no reporter, the records bound unchanged.  With a non-empty
topic and producers = P >= 0 it starts exactly P producer pipelines, one
`wg.Add(1)` per pipeline, and exactly one reporter. -/
theorem main_validates_topic (fl : Flags) (fuel : Nat) :
    (fl.topic = "" →
      ∃ st, main fuel (MainState.init fl) = .ok st ∧
        st.trace = [Event.println "topic not specified"] ∧
        producersStarted st.trace = 0 ∧ reportersStarted st.trace = 0 ∧
        wgAdded st.trace = 0 ∧ st.flags.records = fl.records) ∧
    (fl.topic ≠ "" → IsInt64 fl.producers → 0 ≤ fl.producers → fl.producers ≤ (fuel : Int) →
      ∃ st, main fuel (MainState.init fl) = .ok st ∧
        (producersStarted st.trace : Int) = fl.producers ∧
        wgAdded st.trace = fl.producers ∧
        (∀ d, Event.wgAdd d ∈ st.trace → d = 1) ∧
        reportersStarted st.trace = 1 ∧
        (∀ s, Event.println s ∉ st.trace) ∧
        st.trace = (List.replicate fl.producers.toNat
            [Event.wgAdd 1, Event.goProducer st.flags.records]).flatten ++
          [Event.goPrintRate, Event.wgWait]) := by
  constructor
  · intro htopic
    refine ⟨_, main_of_no_topic fl fuel htopic, rfl, ?_, ?_, ?_, rfl⟩
    · simp [producersStarted]
    · simp [reportersStarted]
    · simp [wgAdded]
  · intro htopic hprod h0 hfuel
    refine ⟨_, main_of_topic fl fuel htopic hprod (by omega), ?_, ?_, ?_, ?_, ?_, rfl⟩
    · show (producersStarted (_ ++ _) : Int) = _
      rw [producersStarted_spawns]
      simp [producersStarted]
      omega
    · show wgAdded (_ ++ _) = _
      rw [wgAdded_spawns]
      simp [wgAdded]
      omega
    · intro d hd
      rcases mem_spawns hd with h | h | h | h
      · cases h; rfl
      · cases h
      · cases h
      · cases h
    · show reportersStarted (_ ++ _) = _
      rw [reportersStarted_spawns]
      simp [reportersStarted]
    · intro s hs
      rcases mem_spawns hs with h | h | h | h <;> cases h

/-- The empty topic of the default flags starts nothing; the scenario flags
(topic `t1`, 2 producers) start 2 pipelines and 1 reporter. -/
theorem main_validates_topic_witness :
    (∃ st, main 0 (MainState.init Flags.default) = .ok st ∧
      st.trace = [Event.println "topic not specified"] ∧ producersStarted st.trace = 0) ∧
    (∃ st, main 2 (MainState.init scenarioFlags) = .ok st ∧
      (producersStarted st.trace : Int) = 2 ∧ reportersStarted st.trace = 1) := by
  constructor
  · obtain ⟨st, h1, h2, h3, _⟩ := (main_validates_topic Flags.default 0).1 (by decide)
    exact ⟨st, h1, h2, h3⟩
  · obtain ⟨st, h1, h2, _, _, h3, _⟩ :=
      (main_validates_topic scenarioFlags 2).2 (by decide) (by decide) (by decide) (by decide)
    exact ⟨st, h1, h2, h3⟩

/-- C6: `main` replaces every records value <= 0 by `math.MaxInt32` =
2147483647 before it creates any producer goroutine, and the write loop of a
producer then runs for 2147483647 iterations; a records value > 0 is left
unchanged and is the exact number of iterations. -/
theorem main_records_sentinel (fl : Flags) (pool : List Byte) (g : Rand) (fuel fuelW : Nat)
    (htopic : fl.topic ≠ "") (hfl : fl.WellTyped) (hfuel : fl.producers ≤ (fuel : Int))
    (hlen : IsInt64 (pool.length : Int))
    (hk0 : 0 ≤ fl.keySize) (hk : fl.keySize < (pool.length : Int))
    (hv0 : 0 ≤ fl.valueSize) (hv : fl.valueSize < (pool.length : Int)) :
    ∃ st, main fuel (MainState.init fl) = .ok st ∧
      (∀ r, Event.goProducer r ∈ st.trace → r = st.flags.records) ∧
      (fl.records ≤ 0 → st.flags.records = 2147483647 ∧
        (2147483647 ≤ fuelW →
          ∃ (w : Writer) (kvs : List (List Byte × List Byte)),
            writer st.flags pool fuelW (Writer.fresh g) = .ok w ∧
            kvs.length = 2147483647 ∧
            w.stdin.written = (kvs.map (fun kv => frame kv.1 kv.2)).flatten ∧
            recordsAdded w.ops = 2147483647)) ∧
      (0 < fl.records → st.flags.records = fl.records ∧
        (fl.records ≤ (fuelW : Int) →
          ∃ (w : Writer) (kvs : List (List Byte × List Byte)),
            writer st.flags pool fuelW (Writer.fresh g) = .ok w ∧
            (kvs.length : Int) = fl.records ∧
            w.stdin.written = (kvs.map (fun kv => frame kv.1 kv.2)).flatten ∧
            recordsAdded w.ops = fl.records)) := by
  obtain ⟨hprod, _, hrec, _, _⟩ := hfl
  refine ⟨_, main_of_topic fl fuel htopic hprod (by omega), ?_, ?_, ?_⟩
  · intro r hr
    rcases mem_spawns hr with h | h | h | h
    · cases h
    · cases h; rfl
    · cases h
    · cases h
  · intro hle
    refine ⟨by simp only [if_pos hle]; rfl, ?_⟩
    intro hfw
    obtain ⟨w, kvs, hrun, hl, _, hwr, _, hops⟩ :=
      writer_spec { fl with records := if fl.records ≤ 0 then MaxInt32 else fl.records }
        pool g fuelW hlen (by simp only [if_pos hle]; decide) hk0 hk hv0 hv
        (by simp only [if_pos hle]; unfold MaxInt32; omega)
    simp only [if_pos hle] at hrun hl hops
    refine ⟨w, kvs, ?_, ?_, hwr, ?_⟩
    · simp only [if_pos hle]
      exact hrun
    · rw [hl]
      rfl
    · rw [hops, recordsAdded_replicate]
      simp [recordOps, recordsAdded, AtomicOp.recordsDelta, MaxInt32]
  · intro hpos
    have hnle : ¬ fl.records ≤ 0 := by omega
    refine ⟨by simp only [if_neg hnle], ?_⟩
    intro hfw
    obtain ⟨w, kvs, hrun, hl, _, hwr, _, hops⟩ :=
      writer_spec { fl with records := if fl.records ≤ 0 then MaxInt32 else fl.records }
        pool g fuelW hlen (by simp only [if_neg hnle]; exact hrec) hk0 hk hv0 hv
        (by simp only [if_neg hnle]; omega)
    simp only [if_neg hnle] at hrun hl hops
    refine ⟨w, kvs, ?_, ?_, hwr, ?_⟩
    · simp only [if_neg hnle]
      exact hrun
    · rw [hl]
      omega
    · rw [hops, recordsAdded_replicate]
      simp [recordOps, recordsAdded, AtomicOp.recordsDelta]
      omega

/-- With `-n 0` (and `-n -5`) the scenario's producers get the bound
2147483647 and their loop runs that many times. -/
theorem main_records_sentinel_witness :
    ({ scenarioFlags with records := 0 } : Flags).WellTyped ∧
    ∃ st, main 2 (MainState.init { scenarioFlags with records := 0 }) = .ok st ∧
      st.flags.records = 2147483647 ∧
      ∃ (w : Writer) (kvs : List (List Byte × List Byte)),
        writer st.flags samplePool 2147483647 (Writer.fresh sampleRand) = .ok w ∧
        kvs.length = 2147483647 := by
  refine ⟨by decide, ?_⟩
  obtain ⟨st, hmain, _, h0, _⟩ :=
    main_records_sentinel { scenarioFlags with records := 0 } samplePool sampleRand 2
      2147483647 (by decide) (by decide) (by decide) (by decide) (by decide) (by decide)
      (by decide) (by decide)
  obtain ⟨hr, hw⟩ := h0 (by decide)
  obtain ⟨w, kvs, hrun, hl, _⟩ := hw (le_refl _)
  exact ⟨st, hmain, hr, w, kvs, hrun, hl⟩

/-! ## The framing of the records (claim C4) -/

theorem colon_not_mem_ascii : colon ∉ ascii := by decide

theorem newline_not_mem_ascii : newline ∉ ascii := by decide

theorem bytesOf_colon : bytesOf ":" = [colon] := by decide

theorem bytesOf_newline : bytesOf "\n" = [newline] := by decide

theorem colon_ne_newline : colon ≠ newline := by decide

theorem frame_eq (key value : List Byte) :
    frame key value = key ++ colon :: (value ++ [newline]) := by
  unfold frame
  rw [bytesOf_colon, bytesOf_newline]
  simp

/-- Every pool `randBytes` returns consists of characters of the alphabet. -/
theorem randBytes_mem_ascii {m : Int} {g0 g1 : Rand} {pool : List Byte}
    (h : randBytes m g0 = .ok (pool, g1)) : ∀ x ∈ pool, x ∈ ascii :=
  (randBytes_ok_inv h).2.2.2

theorem splitAtFirst_append (sep : Byte) (key rest : List Byte) (h : sep ∉ key) :
    splitAtFirst sep (key ++ sep :: rest) = some (key, rest) := by
  induction key with
  | nil => simp [splitAtFirst]
  | cons b key ih =>
    have hb : b ≠ sep := fun hc => h (by rw [hc]; exact List.mem_cons_self _ _)
    have hk : sep ∉ key := fun hc => h (List.mem_cons_of_mem _ hc)
    show splitAtFirst sep (b :: (key ++ sep :: rest)) = _
    unfold splitAtFirst
    rw [if_neg hb, ih hk]
    rfl

theorem stripNewline_concat (l : List Byte) : stripNewline (l ++ [newline]) = some l := by
  unfold stripNewline
  rw [List.getLast?_append, List.dropLast_concat]
  simp

theorem splitLinesAux_cons (b : Byte) (rest cur : List Byte) :
    splitLinesAux (b :: rest) cur =
      if b = newline then cur :: splitLinesAux rest [] else splitLinesAux rest (cur ++ [b]) :=
  rfl

theorem splitLinesAux_append (body rest cur : List Byte) (h : newline ∉ body) :
    splitLinesAux (body ++ newline :: rest) cur = (cur ++ body) :: splitLinesAux rest [] := by
  induction body generalizing cur with
  | nil => simp [splitLinesAux]
  | cons b body ih =>
    have hb : b ≠ newline := fun hc => h (by rw [hc]; exact List.mem_cons_self _ _)
    have hk : newline ∉ body := fun hc => h (List.mem_cons_of_mem _ hc)
    show splitLinesAux (b :: (body ++ newline :: rest)) cur = _
    rw [splitLinesAux_cons, if_neg hb, ih _ hk]
    simp

theorem splitLines_frames (kvs : List (List Byte × List Byte))
    (h : ∀ kv ∈ kvs, newline ∉ kv.1 ∧ newline ∉ kv.2) :
    splitLines (kvs.map (fun kv => frame kv.1 kv.2)).flatten =
      kvs.map (fun kv => kv.1 ++ colon :: kv.2) := by
  unfold splitLines
  induction kvs with
  | nil => simp [splitLinesAux]
  | cons kv rest ih =>
    obtain ⟨h1, h2⟩ := h kv (List.mem_cons_self _ _)
    have hbody : newline ∉ kv.1 ++ colon :: kv.2 := by
      intro hc
      rw [List.mem_append, List.mem_cons] at hc
      rcases hc with hc | hc | hc
      · exact h1 hc
      · exact colon_ne_newline hc.symm
      · exact h2 hc
    rw [List.map_cons, List.flatten_cons, frame_eq]
    have hre : kv.1 ++ colon :: (kv.2 ++ [newline]) ++
        (rest.map (fun kv => frame kv.1 kv.2)).flatten =
        (kv.1 ++ colon :: kv.2) ++ newline :: (rest.map (fun kv => frame kv.1 kv.2)).flatten := by
      simp
    rw [hre, splitLinesAux_append _ _ _ hbody, ih (fun x hx => h x (List.mem_cons_of_mem _ hx))]
    simp

theorem decodeRecord_frame (key value : List Byte) (h : colon ∉ key) :
    decodeRecord (frame key value) = some (key, value) := by
  have hre : frame key value = (key ++ colon :: value) ++ [newline] := by
    rw [frame_eq]
    simp
  unfold decodeRecord
  rw [hre, stripNewline_concat]
  exact splitAtFirst_append colon key value h

theorem not_mem_view_of_pool {pool : List Byte} {n : Int} {v : List Byte} {c : Byte}
    (hpool : ∀ x ∈ pool, x ∈ ascii) (hc : c ∉ ascii) (hv : IsView pool n v) : c ∉ v := by
  obtain ⟨s, _, rfl⟩ := hv
  intro hmem
  exact hc (hpool c (mem_of_mem_view _ _ hmem))

theorem randBytes_length {m : Int} {g0 g1 : Rand} {pool : List Byte}
    (h : randBytes m g0 = .ok (pool, g1)) : (pool.length : Int) = m :=
  (randBytes_ok_inv h).2.2.1

/-- C4: the unescaped framing is unambiguous by construction.  For every
pool produced by `randBytes` and every view of it, the view contains neither
':' nor '\n'; so for every record `key ++ ":" ++ value ++ "\n"` made of two
views, stripping the trailing newline and splitting at the first ':' gives
back (key, value), and what a writer puts on its pipe, a concatenation of
such records, splits at the newlines into exactly the records written. -/
theorem framing_unambiguous (m : Int) (g0 g1 : Rand) (pool : List Byte) (hm : IsInt64 m)
    (hpool : randBytes m g0 = .ok (pool, g1)) :
    (∀ (n : Int) (v : List Byte), IsView pool n v → colon ∉ v ∧ newline ∉ v) ∧
    (∀ (k v : Int) (key value : List Byte), IsView pool k key → IsView pool v value →
      decodeRecord (key ++ bytesOf ":" ++ value ++ bytesOf "\n") = some (key, value)) ∧
    (∀ (k v : Int) (kvs : List (List Byte × List Byte)),
      (∀ kv ∈ kvs, IsView pool k kv.1 ∧ IsView pool v kv.2) →
      (splitLines (kvs.map (fun kv => kv.1 ++ bytesOf ":" ++ kv.2 ++ bytesOf "\n")).flatten).map
          (fun l => l ++ bytesOf "\n") =
        kvs.map (fun kv => kv.1 ++ bytesOf ":" ++ kv.2 ++ bytesOf "\n")) ∧
    (∀ (fl : Flags) (fuel : Nat) (g : Rand), IsInt64 fl.records →
      0 ≤ fl.keySize → fl.keySize < (pool.length : Int) →
      0 ≤ fl.valueSize → fl.valueSize < (pool.length : Int) → fl.records ≤ (fuel : Int) →
      ∃ (w : Writer) (kvs : List (List Byte × List Byte)),
        writer fl pool fuel (Writer.fresh g) = .ok w ∧
        kvs.length = fl.records.toNat ∧
        w.stdin.written = (kvs.map (fun kv => kv.1 ++ bytesOf ":" ++ kv.2 ++ bytesOf "\n")).flatten ∧
        (splitLines w.stdin.written).map (fun l => l ++ bytesOf "\n") =
          kvs.map (fun kv => kv.1 ++ bytesOf ":" ++ kv.2 ++ bytesOf "\n") ∧
        (splitLines w.stdin.written).map (splitAtFirst colon) = kvs.map some ∧
        ∀ kv ∈ kvs,
          decodeRecord (kv.1 ++ bytesOf ":" ++ kv.2 ++ bytesOf "\n") = some kv) := by
  have hascii := randBytes_mem_ascii hpool
  have hlen : IsInt64 (pool.length : Int) := by
    rw [randBytes_length hpool]
    exact hm
  have hfree : ∀ (n : Int) (v : List Byte), IsView pool n v → colon ∉ v ∧ newline ∉ v :=
    fun n v hv => ⟨not_mem_view_of_pool hascii colon_not_mem_ascii hv,
      not_mem_view_of_pool hascii newline_not_mem_ascii hv⟩
  have hlines : ∀ (k v : Int) (kvs : List (List Byte × List Byte)),
      (∀ kv ∈ kvs, IsView pool k kv.1 ∧ IsView pool v kv.2) →
      splitLines (kvs.map (fun kv => frame kv.1 kv.2)).flatten =
        kvs.map (fun kv => kv.1 ++ colon :: kv.2) :=
    fun k v kvs h => splitLines_frames kvs
      (fun kv hkv => ⟨(hfree k kv.1 (h kv hkv).1).2, (hfree v kv.2 (h kv hkv).2).2⟩)
  have hframes : ∀ kvs : List (List Byte × List Byte),
      (kvs.map (fun kv => kv.1 ++ colon :: kv.2)).map (fun l => l ++ bytesOf "\n") =
        kvs.map (fun kv => frame kv.1 kv.2) := by
    intro kvs
    rw [List.map_map]
    apply List.map_congr_left
    intro kv _
    show (kv.1 ++ colon :: kv.2) ++ bytesOf "\n" = frame kv.1 kv.2
    rw [frame_eq, bytesOf_newline]
    simp
  refine ⟨hfree, ?_, ?_, ?_⟩
  · intro k v key value hkey _
    exact decodeRecord_frame key value (hfree k key hkey).1
  · intro k v kvs h
    show (splitLines (kvs.map (fun kv => frame kv.1 kv.2)).flatten).map _ =
      kvs.map (fun kv => frame kv.1 kv.2)
    rw [hlines k v kvs h, hframes]
  · intro fl fuel g hrec hk0 hk hv0 hv hfuel
    obtain ⟨w, kvs, hrun, hl, hviews, hwr, _, _⟩ :=
      writer_spec fl pool g fuel hlen hrec hk0 hk hv0 hv (by omega)
    refine ⟨w, kvs, hrun, hl, hwr, ?_, ?_, ?_⟩
    · rw [hwr, hlines _ _ kvs hviews, hframes]
      rfl
    · rw [hwr, hlines _ _ kvs hviews, List.map_map]
      apply List.map_congr_left
      intro kv hkv
      show splitAtFirst colon (kv.1 ++ colon :: kv.2) = some kv
      exact splitAtFirst_append colon kv.1 kv.2 (hfree _ kv.1 (hviews kv hkv).1).1
    · intro kv hkv
      exact decodeRecord_frame kv.1 kv.2 (hfree _ kv.1 (hviews kv hkv).1).1

/-- A pool of 16 bytes drawn by `randBytes` and the 100 records of the
scenario written from it: the stream decodes to the records written. -/
theorem framing_unambiguous_witness :
    IsInt64 16 ∧
    ∃ pool g1, randBytes 16 sampleRand = .ok (pool, g1) ∧
      (∀ (n : Int) (v : List Byte), IsView pool n v → colon ∉ v ∧ newline ∉ v) ∧
      ∃ (w : Writer) (kvs : List (List Byte × List Byte)),
        writer scenarioFlags pool 100 (Writer.fresh g1) = .ok w ∧
        kvs.length = 100 ∧
        (splitLines w.stdin.written).map (splitAtFirst colon) = kvs.map some := by
  refine ⟨by decide, ?_⟩
  obtain ⟨pool, g1, hrun, hl, _⟩ := randBytes_spec 16 sampleRand (by decide) (by decide)
  have h := framing_unambiguous 16 sampleRand g1 pool (by decide) hrun
  obtain ⟨w, kvs, hw, hlen, _, _, hsplit, _⟩ :=
    h.2.2.2 scenarioFlags 100 g1 (by decide) (by decide)
      (by rw [hl]; decide) (by decide) (by rw [hl]; decide) (by decide)
  exact ⟨pool, g1, hrun, h.1, w, kvs, hw, hlen, hsplit⟩

/-! ## The counters under atomic operations (claims C7, C9) -/

theorem runOps_append (a b : List AtomicOp) (c : Counters) :
    runOps (a ++ b) c = runOps b (runOps a c) := by
  induction a generalizing c with
  | nil => rfl
  | cons op a ih => exact ih _

theorem recordsAdded_cons (op : AtomicOp) (l : List AtomicOp) :
    recordsAdded (op :: l) = op.recordsDelta + recordsAdded l := rfl

theorem bytesAdded_cons (op : AtomicOp) (l : List AtomicOp) :
    bytesAdded (op :: l) = op.bytesDelta + bytesAdded l := rfl

/-- A sequence of adds leaves each counter at its start value plus the total
added, wrapped into `int64`. -/
theorem runOps_adds (tr : List AtomicOp) :
    ∀ c : Counters, IsInt64 c.rateRecords → IsInt64 c.rateBytes →
      (∀ op ∈ tr, op.isAdd = true) →
      runOps tr c =
        { rateRecords := wrap64 (c.rateRecords + recordsAdded tr)
          rateBytes := wrap64 (c.rateBytes + bytesAdded tr) } := by
  induction tr with
  | nil =>
    intro c hr hb _
    show c = _
    simp only [recordsAdded, bytesAdded, List.map_nil, List.sum_nil, Int.add_zero]
    rw [wrap64_eq_self hr, wrap64_eq_self hb]
  | cons op tr ih =>
    intro c hr hb hadds
    have htr : ∀ o ∈ tr, o.isAdd = true := fun o ho => hadds o (List.mem_cons_of_mem _ ho)
    have hop := hadds op (List.mem_cons_self _ _)
    cases op with
    | addRecords d =>
      show runOps tr { c with rateRecords := wrap64 (c.rateRecords + d) } = _
      rw [ih { c with rateRecords := wrap64 (c.rateRecords + d) } (wrap64_isInt64 _) hb htr,
        recordsAdded_cons, bytesAdded_cons]
      simp only [AtomicOp.recordsDelta, AtomicOp.bytesDelta, wrap64_add_wrap64, Int.zero_add,
        Int.add_assoc]
    | addBytes d =>
      show runOps tr { c with rateBytes := wrap64 (c.rateBytes + d) } = _
      rw [ih { c with rateBytes := wrap64 (c.rateBytes + d) } hr (wrap64_isInt64 _) htr,
        recordsAdded_cons, bytesAdded_cons]
      simp only [AtomicOp.recordsDelta, AtomicOp.bytesDelta, wrap64_add_wrap64, Int.zero_add,
        Int.add_assoc]
    | swapRecords => cases hop
    | swapBytes => cases hop

theorem sum_set_of_get? (f : List AtomicOp → Int) (g : AtomicOp → Int) (op : AtomicOp) (rest : List AtomicOp)
    (hf : f (op :: rest) = g op + f rest) :
    ∀ (progs : List (List AtomicOp)) (i : Nat), progs.get? i = some (op :: rest) →
      (progs.map f).sum = g op + ((progs.set i rest).map f).sum := by
  intro progs
  induction progs with
  | nil => intro i h; cases h
  | cons p progs ih =>
    intro i h
    cases i with
    | zero =>
      have hp : p = op :: rest := by simpa using h
      rw [hp]
      simp only [List.set_cons_zero, List.map_cons, List.sum_cons, hf]
      ring
    | succ i =>
      have h' : progs.get? i = some (op :: rest) := by simpa using h
      simp only [List.set_cons_succ, List.map_cons, List.sum_cons, ih i h']
      ring

/-- An interleaving adds to `rateRecords` what the workers add together. -/
theorem Interleaving.recordsAdded_eq {progs : List (List AtomicOp)} {tr : List AtomicOp}
    (h : Interleaving progs tr) : recordsAdded tr = (progs.map recordsAdded).sum := by
  induction h with
  | @done progs hall =>
    have : ∀ p ∈ progs, recordsAdded p = 0 := fun p hp => by rw [hall p hp]; rfl
    rw [sum_map_const progs recordsAdded 0 this]
    simp [recordsAdded]
  | step i op rest hget _ ih =>
    rw [recordsAdded_cons, ih]
    exact (sum_set_of_get? recordsAdded AtomicOp.recordsDelta op rest (recordsAdded_cons op rest) _ i hget).symm

/-- An interleaving adds to `rateBytes` what the workers add together. -/
theorem Interleaving.bytesAdded_eq {progs : List (List AtomicOp)} {tr : List AtomicOp}
    (h : Interleaving progs tr) : bytesAdded tr = (progs.map bytesAdded).sum := by
  induction h with
  | @done progs hall =>
    have : ∀ p ∈ progs, bytesAdded p = 0 := fun p hp => by rw [hall p hp]; rfl
    rw [sum_map_const progs bytesAdded 0 this]
    simp [bytesAdded]
  | step i op rest hget _ ih =>
    rw [bytesAdded_cons, ih]
    exact (sum_set_of_get? bytesAdded AtomicOp.bytesDelta op rest (bytesAdded_cons op rest) _ i hget).symm

/-- An interleaving consists of operations of the workers. -/
theorem Interleaving.mem {progs : List (List AtomicOp)} {tr : List AtomicOp}
    (h : Interleaving progs tr) : ∀ op ∈ tr, ∃ p ∈ progs, op ∈ p := by
  induction h with
  | done _ => intro op hop; cases hop
  | @step progs tr i o rest hget _ ih =>
    intro op hop
    have hmem : (o :: rest) ∈ progs := List.get?_mem hget
    rcases List.mem_cons.mp hop with hop | hop
    · exact ⟨o :: rest, hmem, by rw [hop]; exact List.mem_cons_self _ _⟩
    · obtain ⟨p, hp, hin⟩ := ih op hop
      rcases List.mem_or_eq_of_mem_set hp with hp | hp
      · exact ⟨p, hp, hin⟩
      · exact ⟨o :: rest, hmem, List.mem_cons_of_mem _ (by rw [← hp]; exact hin)⟩

theorem Interleaving.cons_nil {progs : List (List AtomicOp)} {tr : List AtomicOp}
    (h : Interleaving progs tr) : Interleaving ([] :: progs) tr := by
  induction h with
  | @done progs hall =>
    apply Interleaving.done
    intro p hp
    rcases List.mem_cons.mp hp with hp | hp
    · exact hp
    · exact hall p hp
  | @step progs tr i op rest hget _ ih =>
    exact Interleaving.step (i + 1) op rest (by simpa using hget) (by simpa using ih)

theorem Interleaving.cons_prog (p : List AtomicOp) {progs : List (List AtomicOp)}
    {tr : List AtomicOp} (h : Interleaving ([] :: progs) tr) :
    Interleaving (p :: progs) (p ++ tr) := by
  induction p with
  | nil => exact h
  | cons op p ih => exact Interleaving.step 0 op p rfl (by simpa using ih)

/-- Running the workers one after the other is an interleaving. -/
theorem Interleaving.sequential (progs : List (List AtomicOp)) :
    Interleaving progs progs.flatten := by
  induction progs with
  | nil => exact Interleaving.done (fun p hp => by cases hp)
  | cons p progs ih => exact Interleaving.cons_prog p (Interleaving.cons_nil ih)

theorem isInt64_zero : IsInt64 0 := by decide

/-- The two swaps of a tick after an interleaving of adds: what they return. -/
theorem printRateSwaps_after_adds {progs : List (List AtomicOp)} {tr : List AtomicOp}
    (hadds : ∀ p ∈ progs, ∀ op ∈ p, op.isAdd = true) (hint : Interleaving progs tr) :
    printRateSwaps (runOps tr Counters.zero) =
      (Counters.zero, (wrap64 ((progs.map recordsAdded).sum),
        wrap64 ((progs.map bytesAdded).sum))) := by
  have hall : ∀ op ∈ tr, op.isAdd = true := by
    intro op hop
    obtain ⟨p, hp, hin⟩ := hint.mem op hop
    exact hadds p hp op hin
  rw [runOps_adds tr Counters.zero isInt64_zero isInt64_zero hall, hint.recordsAdded_eq,
    hint.bytesAdded_eq]
  simp only [Counters.zero, Int.zero_add]
  rfl

/-- C7 (amended): for every number of workers W, every r and b with W*r and
W*b representable in `int64`, and every interleaving of the workers' atomic
adds (each worker adding r records and b bytes in total), the two swaps of
one tick performed after all the adds return exactly W*r and W*b and leave
both counters at zero; a read of a counter right after its swap, and a
second swap, give zero. -/
theorem swaps_return_totals (progs : List (List AtomicOp)) (tr : List AtomicOp) (r b : Int)
    (hadds : ∀ p ∈ progs, ∀ op ∈ p, op.isAdd = true)
    (hr : ∀ p ∈ progs, recordsAdded p = r) (hb : ∀ p ∈ progs, bytesAdded p = b)
    (hint : Interleaving progs tr)
    (hR : IsInt64 ((progs.length : Int) * r)) (hB : IsInt64 ((progs.length : Int) * b)) :
    (printRateSwaps (runOps tr Counters.zero)).2 =
        ((progs.length : Int) * r, (progs.length : Int) * b) ∧
      (printRateSwaps (runOps tr Counters.zero)).1 = Counters.zero ∧
      (∀ c : Counters, (AtomicOp.swapRecords.exec c).1.rateRecords = 0 ∧
        (AtomicOp.swapBytes.exec c).1.rateBytes = 0 ∧
        (AtomicOp.swapRecords.exec (AtomicOp.swapRecords.exec c).1).2 = 0 ∧
        (AtomicOp.swapBytes.exec (AtomicOp.swapBytes.exec c).1).2 = 0 ∧
        (printRateSwaps (printRateSwaps c).1).2 = (0, 0)) := by
  rw [printRateSwaps_after_adds hadds hint, sum_map_const progs recordsAdded r hr,
    sum_map_const progs bytesAdded b hb, wrap64_eq_self hR, wrap64_eq_self hB]
  exact ⟨rfl, rfl, fun c => ⟨rfl, rfl, rfl, rfl, rfl⟩⟩

/-- Three workers adding 2 records and 16 bytes each, interleaved. -/
theorem swaps_return_totals_witness :
    (printRateSwaps (runOps
      [AtomicOp.addRecords 1, AtomicOp.addRecords 1, AtomicOp.addBytes 8, AtomicOp.addRecords 1,
       AtomicOp.addBytes 8, AtomicOp.addBytes 8, AtomicOp.addRecords 1, AtomicOp.addBytes 8,
       AtomicOp.addRecords 1, AtomicOp.addBytes 8, AtomicOp.addRecords 1, AtomicOp.addBytes 8]
      Counters.zero)).2 = (((3 : Nat) : Int) * 2, ((3 : Nat) : Int) * 16) :=
  (swaps_return_totals
    [[AtomicOp.addRecords 1, AtomicOp.addBytes 8, AtomicOp.addRecords 1, AtomicOp.addBytes 8],
     [AtomicOp.addRecords 1, AtomicOp.addBytes 8, AtomicOp.addRecords 1, AtomicOp.addBytes 8],
     [AtomicOp.addRecords 1, AtomicOp.addBytes 8, AtomicOp.addRecords 1, AtomicOp.addBytes 8]]
    _ 2 16 (by decide) (by decide) (by decide)
    (Interleaving.step 0 _ _ rfl (Interleaving.step 1 _ _ rfl (Interleaving.step 1 _ _ rfl
      (Interleaving.step 2 _ _ rfl (Interleaving.step 2 _ _ rfl (Interleaving.step 0 _ _ rfl
      (Interleaving.step 0 _ _ rfl (Interleaving.step 0 _ _ rfl (Interleaving.step 1 _ _ rfl
      (Interleaving.step 1 _ _ rfl (Interleaving.step 2 _ _ rfl (Interleaving.step 2 _ _ rfl
      (Interleaving.done (by decide))))))))))))))
    (by decide) (by decide)).1

theorem isAdd_of_mem_replicate (n : Nat) (ops : List AtomicOp)
    (h : ∀ op ∈ ops, op.isAdd = true) :
    ∀ op ∈ (List.replicate n ops).flatten, op.isAdd = true := by
  intro op hop
  rw [List.mem_flatten] at hop
  obtain ⟨l, hl, hin⟩ := hop
  rw [(List.mem_replicate.mp hl).2] at hin
  exact h op hin

/-- A producer of `overflowFlags` run to completion issues 2^62 times the
adds of 1 record and 2 bytes. -/
theorem overflow_writerOps (g : Rand) :
    writerOps overflowFlags samplePool 4611686018427387904 g =
      (List.replicate 4611686018427387904
        [AtomicOp.addRecords 1, AtomicOp.addBytes 2]).flatten := by
  obtain ⟨w, _, hrun, _, _, _, _, hops⟩ :=
    writer_spec overflowFlags samplePool g 4611686018427387904 (by decide) (by decide)
      (by decide) (by decide) (by decide) (by decide) (by decide)
  rw [writerOps_eq hrun, hops]
  rfl

theorem overflow_recordsAdded :
    recordsAdded (List.replicate 4611686018427387904
      [AtomicOp.addRecords 1, AtomicOp.addBytes 2]).flatten = 4611686018427387904 := by
  rw [recordsAdded_replicate]
  decide

theorem overflow_bytesAdded :
    bytesAdded (List.replicate 4611686018427387904
      [AtomicOp.addRecords 1, AtomicOp.addBytes 2]).flatten = 9223372036854775808 := by
  rw [bytesAdded_replicate]
  decide

theorem overflowProgs_eq :
    overflowProgs =
      [(List.replicate 4611686018427387904
          [AtomicOp.addRecords 1, AtomicOp.addBytes 2]).flatten,
       (List.replicate 4611686018427387904
          [AtomicOp.addRecords 1, AtomicOp.addBytes 2]).flatten] := by
  unfold overflowProgs
  rw [overflow_writerOps, overflow_writerOps]

theorem overflowProgs_adds : ∀ p ∈ overflowProgs, ∀ op ∈ p, op.isAdd = true := by
  rw [overflowProgs_eq]
  intro p hp
  have hp' : p = (List.replicate 4611686018427387904
      [AtomicOp.addRecords 1, AtomicOp.addBytes 2]).flatten := by
    rcases List.mem_cons.mp hp with h | h
    · exact h
    · exact List.mem_singleton.mp h
  rw [hp']
  exact isAdd_of_mem_replicate _ _ (by decide)

theorem overflowProgs_mem {p : List AtomicOp} (hp : p ∈ overflowProgs) :
    p = (List.replicate 4611686018427387904
      [AtomicOp.addRecords 1, AtomicOp.addBytes 2]).flatten := by
  rw [overflowProgs_eq] at hp
  rcases List.mem_cons.mp hp with h | h
  · exact h
  · exact List.mem_singleton.mp h

/-- C7 as stated fails on overflow: two producers run with
`-n 4611686018427387904 -k 1 -v 1` add r = 2^62 records and b = 2^63 bytes
each; after all the adds the swaps return -2^63 and 0, not W*r = 2^63 and
W*b = 2^64. -/
theorem swaps_wrap_around :
    (∀ p ∈ overflowProgs, ∀ op ∈ p, op.isAdd = true) ∧
    (∀ p ∈ overflowProgs, recordsAdded p = 4611686018427387904) ∧
    (∀ p ∈ overflowProgs, bytesAdded p = 9223372036854775808) ∧
    Interleaving overflowProgs overflowProgs.flatten ∧
    (printRateSwaps (runOps overflowProgs.flatten Counters.zero)).2 =
      (-9223372036854775808, 0) ∧
    (printRateSwaps (runOps overflowProgs.flatten Counters.zero)).2 ≠
      ((overflowProgs.length : Int) * 4611686018427387904,
       (overflowProgs.length : Int) * 9223372036854775808) := by
  have hrec : ∀ p ∈ overflowProgs, recordsAdded p = 4611686018427387904 := by
    intro p hp
    rw [overflowProgs_mem hp]
    exact overflow_recordsAdded
  have hbytes : ∀ p ∈ overflowProgs, bytesAdded p = 9223372036854775808 := by
    intro p hp
    rw [overflowProgs_mem hp]
    exact overflow_bytesAdded
  have hlen : overflowProgs.length = 2 := rfl
  have hval : (printRateSwaps (runOps overflowProgs.flatten Counters.zero)).2 =
      (-9223372036854775808, 0) := by
    rw [printRateSwaps_after_adds overflowProgs_adds (Interleaving.sequential overflowProgs),
      sum_map_const overflowProgs recordsAdded _ hrec,
      sum_map_const overflowProgs bytesAdded _ hbytes, hlen]
    decide
  refine ⟨overflowProgs_adds, hrec, hbytes, Interleaving.sequential overflowProgs, hval, ?_⟩
  rw [hval, hlen]
  decide

/-- A view at least as large as the pool panics in `rand.Intn`. -/
theorem randView_of_ge (data : List Byte) {n : Int} (g : Rand)
    (hlen : IsInt64 (data.length : Int)) (hn : IsInt64 n) (h : (data.length : Int) ≤ n) :
    randView n data g = .error .intnInvalidArg := by
  unfold IsInt64 at hlen hn
  have hw : wrap64 ((data.length : Int) - n) = (data.length : Int) - n :=
    wrap64_eq_self ⟨by omega, by omega⟩
  unfold randView
  rw [hw, Intn_of_nonpos g (by omega)]
  rfl

/-- A view of negative size panics: in `rand.Intn` when `len(data) - n`
overflows, in the slice expression (high bound below low bound) otherwise. -/
theorem randView_of_neg (data : List Byte) {n : Int} (g : Rand)
    (hlen : IsInt64 (data.length : Int)) (hn : IsInt64 n) (h : n < 0) :
    randView n data g = .error .intnInvalidArg ∨ randView n data g = .error .sliceBounds := by
  unfold IsInt64 at hlen hn
  by_cases hov : wrap64 ((data.length : Int) - n) ≤ 0
  · left
    unfold randView
    rw [Intn_of_nonpos g hov]
    rfl
  · right
    have hpos : 0 < wrap64 ((data.length : Int) - n) := by omega
    have hw : wrap64 ((data.length : Int) - n) = (data.length : Int) - n := by
      unfold wrap64 at hpos ⊢
      omega
    have hlt : (data.length : Int) - n < 9223372036854775808 := by
      unfold wrap64 at hpos
      omega
    have hs : ((g.draw g.pos % (wrap64 ((data.length : Int) - n)).toNat : Nat) : Int) <
        (data.length : Int) - n := by
      rw [hw]
      have hp : 0 < ((data.length : Int) - n).toNat := by omega
      have := Nat.mod_lt (g.draw g.pos) hp
      omega
    have hw2 : wrap64 (((g.draw g.pos % (wrap64 ((data.length : Int) - n)).toNat : Nat) : Int)
        + n) = ((g.draw g.pos % (wrap64 ((data.length : Int) - n)).toNat : Nat) : Int) + n :=
      wrap64_eq_self ⟨by omega, by omega⟩
    unfold randView
    rw [Intn_of_pos g hpos]
    show (do
      let v ← sliceOf data _ (wrap64 (_ + n))
      pure (v, g.next)) = _
    rw [hw2]
    unfold sliceOf
    rw [if_neg (by omega)]
    rfl

/-- A view that succeeds has a size within `[0, len(data))`. -/
theorem bounds_of_randView_ok {data : List Byte} {n : Int} {g : Rand}
    {r : List Byte × Rand} (hlen : IsInt64 (data.length : Int)) (hn : IsInt64 n)
    (h : randView n data g = .ok r) : 0 ≤ n ∧ n < (data.length : Int) := by
  constructor
  · by_contra hneg
    rcases randView_of_neg data g hlen hn (by omega) with he | he
    · rw [he] at h; cases h
    · rw [he] at h; cases h
  · by_contra hge
    rw [randView_of_ge data g hlen hn (by omega)] at h
    cases h

/-- An iteration that succeeds was run with both sizes within `[0, len(data))`. -/
theorem bounds_of_writeRecord_ok {fl : Flags} {data : List Byte} {w w1 : Writer}
    (hlen : IsInt64 (data.length : Int)) (hk : IsInt64 fl.keySize) (hv : IsInt64 fl.valueSize)
    (h : writeRecord fl data w = .ok w1) :
    (0 ≤ fl.keySize ∧ fl.keySize < (data.length : Int)) ∧
      (0 ≤ fl.valueSize ∧ fl.valueSize < (data.length : Int)) := by
  unfold writeRecord at h
  cases hkey : randView fl.keySize data w.rng with
  | error e =>
    rw [hkey] at h
    cases h
  | ok r1 =>
    rw [hkey] at h
    cases hval : randView fl.valueSize data r1.2 with
    | error e =>
      have h' : (do
        let (value, g2) ← randView fl.valueSize data r1.2
        (pure _ : Except Err Writer)) = Except.ok w1 := h
      rw [hval] at h'
      cases h'
    | ok r2 =>
      exact ⟨bounds_of_randView_ok hlen hk hkey, bounds_of_randView_ok hlen hv hval⟩

/-- The operations an iteration issues are the two adds of `recordOps`. -/
theorem iterationOps_ok (fl : Flags) (data : List Byte) (w : Writer)
    (hlen : IsInt64 (data.length : Int))
    (hk0 : 0 ≤ fl.keySize) (hk : fl.keySize < (data.length : Int))
    (hv0 : 0 ≤ fl.valueSize) (hv : fl.valueSize < (data.length : Int)) :
    iterationOps fl data w = .ok (recordOps fl) := by
  unfold iterationOps
  rw [writeRecord_eq fl data w hlen hk0 hk hv0 hv]
  show Except.ok ((w.ops ++ recordOps fl).drop w.ops.length) = _
  rw [List.drop_left]

/-- A producer step is one of the two adds of `recordOps`, and the sizes are
then within `[0, len(data))`. -/
theorem IsProducerOp.spec {fl : Flags} {data : List Byte} {op : AtomicOp}
    (hlen : IsInt64 (data.length : Int)) (hk : IsInt64 fl.keySize) (hv : IsInt64 fl.valueSize)
    (h : IsProducerOp fl data op) :
    op ∈ recordOps fl ∧ (0 ≤ fl.keySize ∧ fl.keySize < (data.length : Int)) ∧
      (0 ≤ fl.valueSize ∧ fl.valueSize < (data.length : Int)) := by
  obtain ⟨w, ops, hops, hmem⟩ := h
  cases hw : writeRecord fl data w with
  | error e =>
    unfold iterationOps at hops
    rw [hw] at hops
    cases hops
  | ok w1 =>
    obtain ⟨⟨hk0, hk1⟩, ⟨hv0, hv1⟩⟩ := bounds_of_writeRecord_ok hlen hk hv hw
    rw [iterationOps_ok fl data w hlen hk0 hk1 hv0 hv1] at hops
    cases hops
    exact ⟨hmem, ⟨hk0, hk1⟩, ⟨hv0, hv1⟩⟩

/-- With sizes within `[0, len(data))` both adds of `recordOps` are producer
steps. -/
theorem isProducerOp_of_mem {fl : Flags} {data : List Byte} {op : AtomicOp}
    (hlen : IsInt64 (data.length : Int))
    (hk0 : 0 ≤ fl.keySize) (hk : fl.keySize < (data.length : Int))
    (hv0 : 0 ≤ fl.valueSize) (hv : fl.valueSize < (data.length : Int))
    (h : op ∈ recordOps fl) : IsProducerOp fl data op :=
  ⟨Writer.fresh { draw := fun _ => 0, pos := 0 }, recordOps fl,
    iterationOps_ok fl data _ hlen hk0 hk hv0 hv, h⟩

theorem runOps_cons (op : AtomicOp) (tr : List AtomicOp) (c : Counters) :
    runOps (op :: tr) c = runOps tr (op.exec c).1 := rfl

/-- Non-negative counters stay non-negative under adds of non-negative
amounts that do not overflow, and under swaps to zero. -/
theorem runOps_nonneg (tr : List AtomicOp) :
    ∀ c : Counters, 0 ≤ c.rateRecords → 0 ≤ c.rateBytes →
      (∀ op ∈ tr, 0 ≤ op.recordsDelta ∧ 0 ≤ op.bytesDelta) → NoOverflow tr c →
      0 ≤ (runOps tr c).rateRecords ∧ 0 ≤ (runOps tr c).rateBytes := by
  induction tr with
  | nil => intro c hr hb _ _; exact ⟨hr, hb⟩
  | cons op tr ih =>
    intro c hr hb hpos hno
    have htr : ∀ o ∈ tr, 0 ≤ o.recordsDelta ∧ 0 ≤ o.bytesDelta :=
      fun o ho => hpos o (List.mem_cons_of_mem _ ho)
    have hop := hpos op (List.mem_cons_self _ _)
    rw [runOps_cons]
    cases op with
    | addRecords d =>
      obtain ⟨h1, h2⟩ := hno
      have hd : 0 ≤ d := hop.1
      refine ih _ ?_ hb htr h2
      show 0 ≤ wrap64 (c.rateRecords + d)
      rw [wrap64_eq_self h1]
      omega
    | addBytes d =>
      obtain ⟨h1, h2⟩ := hno
      have hd : 0 ≤ d := hop.2
      refine ih _ hr ?_ htr h2
      show 0 ≤ wrap64 (c.rateBytes + d)
      rw [wrap64_eq_self h1]
      omega
    | swapRecords => exact ih _ (le_refl 0) hb htr hno.2
    | swapBytes => exact ih _ hr (le_refl 0) htr hno.2

/-- C9 (amended): the two rate counters never go negative as long as no
atomic add overflows `int64`: in every state reachable from rateRecords =
rateBytes = 0 by a sequence of producer steps (add 1 to rateRecords, add
keySize+valueSize to rateBytes, after both views succeeded) and reporter
steps (swap a counter to zero) in which every add stays within `int64`, both
counters are >= 0, for every configured keySize and valueSize; with a
negative size `randView` panics, so there is no producer step at all. -/
theorem counters_nonneg_of_no_overflow (fl : Flags) (pool : List Byte) (tr : List AtomicOp)
    (hpool : pool.length ≤ maxAlloc) (hk : IsInt64 fl.keySize) (hv : IsInt64 fl.valueSize)
    (hsteps : ∀ op ∈ tr, IsProducerOp fl pool op ∨ IsReporterOp op)
    (hno : NoOverflow tr Counters.zero) :
    (0 ≤ (runOps tr Counters.zero).rateRecords ∧ 0 ≤ (runOps tr Counters.zero).rateBytes) ∧
      (∀ op, IsProducerOp fl pool op →
        op = AtomicOp.addRecords 1 ∨ op = AtomicOp.addBytes (fl.keySize + fl.valueSize)) ∧
      ((fl.keySize < 0 ∨ fl.valueSize < 0) →
        (∀ w, ∃ e, writeRecord fl pool w = .error e) ∧ ∀ op, ¬ IsProducerOp fl pool op) := by
  have hmax : (pool.length : Int) ≤ 281474976710656 := by
    have : pool.length ≤ 281474976710656 := hpool
    omega
  have hlen : IsInt64 (pool.length : Int) := ⟨by omega, by omega⟩
  have hprod : ∀ op, IsProducerOp fl pool op →
      (op = AtomicOp.addRecords 1 ∨ op = AtomicOp.addBytes (fl.keySize + fl.valueSize)) ∧
        0 ≤ fl.keySize + fl.valueSize := by
    intro op hop
    obtain ⟨hmem, ⟨hk0, hk1⟩, ⟨hv0, hv1⟩⟩ := hop.spec hlen hk hv
    rw [recordOps_eq fl ⟨by omega, by omega⟩] at hmem
    refine ⟨?_, by omega⟩
    rcases List.mem_cons.mp hmem with h | h
    · exact Or.inl h
    · exact Or.inr (List.mem_singleton.mp h)
  refine ⟨?_, fun op hop => (hprod op hop).1, ?_⟩
  · apply runOps_nonneg tr Counters.zero (le_refl 0) (le_refl 0) _ hno
    intro op hop
    rcases hsteps op hop with h | h
    · obtain ⟨h1, h2⟩ := hprod op h
      rcases h1 with h1 | h1
      · rw [h1]
        exact ⟨by decide, le_refl 0⟩
      · rw [h1]
        exact ⟨le_refl 0, h2⟩
    · rcases h with h | h
      · rw [h]
        exact ⟨le_refl 0, le_refl 0⟩
      · rw [h]
        exact ⟨le_refl 0, le_refl 0⟩
  · intro hneg
    have hnone : ∀ op, ¬ IsProducerOp fl pool op := by
      intro op hop
      obtain ⟨_, ⟨hk0, _⟩, ⟨hv0, _⟩⟩ := hop.spec hlen hk hv
      omega
    refine ⟨?_, hnone⟩
    intro w
    cases hw : writeRecord fl pool w with
    | error e => exact ⟨e, rfl⟩
    | ok w1 =>
      obtain ⟨⟨hk0, _⟩, ⟨hv0, _⟩⟩ := bounds_of_writeRecord_ok hlen hk hv hw
      omega

/-- Two iterations of a scenario producer interleaved with the two swaps. -/
theorem counters_nonneg_of_no_overflow_witness :
    samplePool.length ≤ maxAlloc ∧ IsInt64 scenarioFlags.keySize ∧
    IsInt64 scenarioFlags.valueSize ∧
    NoOverflow [AtomicOp.addRecords 1, AtomicOp.swapRecords, AtomicOp.addBytes 8,
      AtomicOp.addRecords 1, AtomicOp.swapBytes, AtomicOp.addBytes 8] Counters.zero ∧
    0 ≤ (runOps [AtomicOp.addRecords 1, AtomicOp.swapRecords, AtomicOp.addBytes 8,
      AtomicOp.addRecords 1, AtomicOp.swapBytes, AtomicOp.addBytes 8]
      Counters.zero).rateRecords ∧
    0 ≤ (runOps [AtomicOp.addRecords 1, AtomicOp.swapRecords, AtomicOp.addBytes 8,
      AtomicOp.addRecords 1, AtomicOp.swapBytes, AtomicOp.addBytes 8]
      Counters.zero).rateBytes := by
  have hp : ∀ op ∈ recordOps scenarioFlags, IsProducerOp scenarioFlags samplePool op :=
    fun op hop => isProducerOp_of_mem (by decide) (by decide) (by decide) (by decide)
      (by decide) hop
  have h := counters_nonneg_of_no_overflow scenarioFlags samplePool
    [AtomicOp.addRecords 1, AtomicOp.swapRecords, AtomicOp.addBytes 8,
      AtomicOp.addRecords 1, AtomicOp.swapBytes, AtomicOp.addBytes 8]
    (by decide) (by decide) (by decide)
    (by
      intro op hop
      simp only [List.mem_cons, List.mem_singleton, List.not_mem_nil, or_false] at hop
      rcases hop with h | h | h | h | h | h
      · exact Or.inl (hp op (by rw [h]; decide))
      · exact Or.inr (Or.inl h)
      · exact Or.inl (hp op (by rw [h]; decide))
      · exact Or.inl (hp op (by rw [h]; decide))
      · exact Or.inr (Or.inr h)
      · exact Or.inl (hp op (by rw [h]; decide)))
    (by decide)
  exact ⟨by decide, by decide, by decide, by decide, h.1.1, h.1.2⟩

theorem overflowTrace_eq :
    overflowTrace = (List.replicate 4611686018427387904
      [AtomicOp.addRecords 1, AtomicOp.addBytes 2]).flatten :=
  overflow_writerOps sampleRand

/-- C9 as stated fails on overflow: one producer run with
`-n 4611686018427387904 -k 1 -v 1` and no tick of the reporter performs
producer steps only, and leaves `rateBytes` at -2^63. -/
theorem counters_go_negative :
    samplePool.length ≤ maxAlloc ∧ IsInt64 overflowFlags.keySize ∧
    IsInt64 overflowFlags.valueSize ∧
    (∀ op ∈ overflowTrace, IsProducerOp overflowFlags samplePool op ∨ IsReporterOp op) ∧
    (runOps overflowTrace Counters.zero).rateBytes = -9223372036854775808 ∧
    ¬ (0 ≤ (runOps overflowTrace Counters.zero).rateRecords ∧
        0 ≤ (runOps overflowTrace Counters.zero).rateBytes) := by
  have hadds : ∀ op ∈ overflowTrace, op.isAdd = true := by
    rw [overflowTrace_eq]
    exact isAdd_of_mem_replicate _ _ (by decide)
  have hval : (runOps overflowTrace Counters.zero).rateBytes = -9223372036854775808 := by
    rw [runOps_adds overflowTrace Counters.zero isInt64_zero isInt64_zero hadds]
    show wrap64 (Counters.zero.rateBytes + bytesAdded overflowTrace) = _
    rw [overflowTrace_eq, overflow_bytesAdded]
    decide
  refine ⟨by decide, by decide, by decide, ?_, hval, ?_⟩
  · intro op hop
    left
    rw [overflowTrace_eq, List.mem_flatten] at hop
    obtain ⟨l, hl, hin⟩ := hop
    rw [(List.mem_replicate.mp hl).2] at hin
    exact isProducerOp_of_mem (by decide) (by decide) (by decide) (by decide) (by decide)
      (by exact hin)
  · rw [hval]
    intro h
    exact absurd h.2 (by decide)

/-! ## `float64` rounding (claim C10) -/

theorem log2Fuel_spec : ∀ (fuel n : Nat), n ≤ fuel → 0 < n →
    2 ^ log2Fuel fuel n ≤ n ∧ n < 2 ^ (log2Fuel fuel n + 1)
  | 0, n, h, hpos => by omega
  | fuel + 1, n, h, hpos => by
    unfold log2Fuel
    by_cases h2 : n < 2
    · rw [if_pos h2]
      simp
      omega
    · rw [if_neg h2]
      obtain ⟨h1, h3⟩ := log2Fuel_spec fuel (n / 2) (by omega) (by omega)
      constructor
      · rw [Nat.pow_succ]
        omega
      · rw [Nat.pow_succ]
        omega

theorem ilog2_le {n : Nat} (h : 0 < n) : 2 ^ ilog2 n ≤ n :=
  (log2Fuel_spec n n (le_refl n) h).1

theorem lt_ilog2 {n : Nat} (h : 0 < n) : n < 2 ^ (ilog2 n + 1) :=
  (log2Fuel_spec n n (le_refl n) h).2

/-- The rounded quotient is within one half of the quotient. -/
theorem divRoundEven_spec (a : Nat) {b : Nat} (hb : 0 < b) :
    2 * (divRoundEven a b * b) ≤ 2 * a + b ∧ 2 * a ≤ 2 * (divRoundEven a b * b) + b := by
  have hdm := Nat.div_add_mod a b
  have hmod := Nat.mod_lt a hb
  have hmul : b * (a / b) = a / b * b := Nat.mul_comm _ _
  unfold divRoundEven
  split_ifs with h1 h2 h3
  · constructor <;> omega
  · rw [Nat.add_mul]
    constructor <;> omega
  · constructor <;> omega
  · rw [Nat.add_mul]
    constructor <;> omega

/-- An exact quotient is not changed by rounding. -/
theorem divRoundEven_of_dvd {a b : Nat} (hb : 0 < b) (h : b ∣ a) :
    divRoundEven a b = a / b := by
  unfold divRoundEven
  rw [Nat.mod_eq_zero_of_dvd h, if_pos (by omega)]

theorem divRoundEven_rat (a : Nat) {b : Nat} (hb : 0 < b) :
    |(divRoundEven a b : ℚ) - (a : ℚ) / (b : ℚ)| ≤ 1 / 2 := by
  obtain ⟨h1, h2⟩ := divRoundEven_spec a hb
  have hbq : (0 : ℚ) < (b : ℚ) := by exact_mod_cast hb
  have h1q : 2 * ((divRoundEven a b : ℚ) * b) ≤ 2 * a + b := by exact_mod_cast h1
  have h2q : 2 * (a : ℚ) ≤ 2 * ((divRoundEven a b : ℚ) * b) + b := by exact_mod_cast h2
  have he : ((divRoundEven a b : ℚ) - (a : ℚ) / (b : ℚ)) * (b : ℚ) =
      (divRoundEven a b : ℚ) * b - a := by
    rw [sub_mul, div_mul_cancel₀ _ (ne_of_gt hbq)]
  rw [abs_le]
  constructor
  · by_contra hc
    push_neg at hc
    have := mul_lt_mul_of_pos_right hc hbq
    rw [he] at this
    linarith
  · by_contra hc
    push_neg at hc
    have := mul_lt_mul_of_pos_right hc hbq
    rw [he] at this
    linarith

theorem scaled_pos (a : Nat) {b : Nat} (hb : 0 < b) (e : Int) : 0 < (scaled a b e).2 := by
  unfold scaled
  split_ifs
  · exact Nat.mul_pos hb (Nat.pos_of_ne_zero (by positivity))
  · exact hb

theorem scaled_ratio (a : Nat) {b : Nat} (hb : 0 < b) (e : Int) :
    ((scaled a b e).1 : ℚ) / ((scaled a b e).2 : ℚ) = (a : ℚ) / (b : ℚ) / (2 : ℚ) ^ e := by
  have hbq : (b : ℚ) ≠ 0 := by exact_mod_cast (ne_of_gt hb)
  unfold scaled
  split_ifs with h
  · have he : e = ((e.toNat : Nat) : Int) := (Int.toNat_of_nonneg h).symm
    have hp : (2 : ℚ) ^ e = (2 : ℚ) ^ e.toNat := by
      conv_lhs => rw [he]
      exact zpow_natCast 2 e.toNat
    rw [hp]
    push_cast
    rw [div_div]
  · have he : e = -(((-e).toNat : Nat) : Int) := by omega
    have hp : (2 : ℚ) ^ e = ((2 : ℚ) ^ (-e).toNat)⁻¹ := by
      conv_lhs => rw [he]
      rw [zpow_neg, zpow_natCast]
    rw [hp]
    push_cast
    field_simp

/-- Rounding a scaled quotient of at least 2^52 gives a relative error of at
most 2^-53. -/
theorem round_scaled_spec (a : Nat) {b : Nat} (hb : 0 < b) (e : Int)
    (hlow : (2 : ℚ) ^ 52 ≤ (a : ℚ) / (b : ℚ) / (2 : ℚ) ^ e) :
    |(divRoundEven (scaled a b e).1 (scaled a b e).2 : ℚ) * (2 : ℚ) ^ e - (a : ℚ) / (b : ℚ)| ≤
      (a : ℚ) / (b : ℚ) / 2 ^ 53 := by
  have hpe : (0 : ℚ) < (2 : ℚ) ^ e := zpow_pos (by norm_num) e
  have hr := divRoundEven_rat (scaled a b e).1 (scaled_pos a hb e)
  rw [scaled_ratio a hb e] at hr
  have hx : (a : ℚ) / (b : ℚ) = (a : ℚ) / (b : ℚ) / (2 : ℚ) ^ e * (2 : ℚ) ^ e := by
    rw [div_mul_cancel₀ _ (ne_of_gt hpe)]
  have hfac : (divRoundEven (scaled a b e).1 (scaled a b e).2 : ℚ) * (2 : ℚ) ^ e -
      (a : ℚ) / (b : ℚ) =
      ((divRoundEven (scaled a b e).1 (scaled a b e).2 : ℚ) -
        (a : ℚ) / (b : ℚ) / (2 : ℚ) ^ e) * (2 : ℚ) ^ e := by
    rw [sub_mul, ← hx]
  rw [hfac, abs_mul, abs_of_pos hpe]
  have hhalf : (1 : ℚ) / 2 ≤ (a : ℚ) / (b : ℚ) / (2 : ℚ) ^ e / 2 ^ 53 := by
    rw [le_div_iff₀ (by norm_num)]
    calc (1 : ℚ) / 2 * 2 ^ 53 = 2 ^ 52 := by norm_num
      _ ≤ _ := hlow
  calc |(divRoundEven (scaled a b e).1 (scaled a b e).2 : ℚ) -
        (a : ℚ) / (b : ℚ) / (2 : ℚ) ^ e| * (2 : ℚ) ^ e
      ≤ ((a : ℚ) / (b : ℚ) / (2 : ℚ) ^ e / 2 ^ 53) * (2 : ℚ) ^ e :=
        mul_le_mul_of_nonneg_right (le_trans hr hhalf) (le_of_lt hpe)
    _ = (a : ℚ) / (b : ℚ) / 2 ^ 53 := by
        field_simp
        ring

/-- The scaled quotient of the first exponent tried is at least 2^52. -/
theorem scaled_first_low {a b : Nat} (ha : 0 < a) (hb : 0 < b) :
    (2 : ℚ) ^ 52 ≤
      (a : ℚ) / (b : ℚ) / (2 : ℚ) ^ ((ilog2 a : Int) - (ilog2 b : Int) - 53) := by
  have hbq : (0 : ℚ) < (b : ℚ) := by exact_mod_cast hb
  have hpe : (0 : ℚ) < (2 : ℚ) ^ ((ilog2 a : Int) - (ilog2 b : Int) - 53) :=
    zpow_pos (by norm_num) _
  have h1 : ((2 : ℚ) ^ ilog2 a) ≤ (a : ℚ) := by exact_mod_cast ilog2_le ha
  have h2 : (b : ℚ) ≤ (2 : ℚ) ^ (ilog2 b + 1) := by exact_mod_cast le_of_lt (lt_ilog2 hb)
  rw [le_div_iff₀ hpe, le_div_iff₀ hbq]
  have hpow : (2 : ℚ) ^ 52 * (2 : ℚ) ^ ((ilog2 a : Int) - (ilog2 b : Int) - 53) *
      (2 : ℚ) ^ (ilog2 b + 1) = (2 : ℚ) ^ ilog2 a := by
    rw [← zpow_natCast (2 : ℚ) 52, ← zpow_natCast (2 : ℚ) (ilog2 b + 1),
      ← zpow_natCast (2 : ℚ) (ilog2 a), ← zpow_add₀ (by norm_num), ← zpow_add₀ (by norm_num)]
    congr 1
    push_cast
    ring
  calc (2 : ℚ) ^ 52 * (2 : ℚ) ^ ((ilog2 a : Int) - (ilog2 b : Int) - 53) * (b : ℚ)
      ≤ (2 : ℚ) ^ 52 * (2 : ℚ) ^ ((ilog2 a : Int) - (ilog2 b : Int) - 53) *
          (2 : ℚ) ^ (ilog2 b + 1) :=
        mul_le_mul_of_nonneg_left h2 (by positivity)
    _ = (2 : ℚ) ^ ilog2 a := hpow
    _ ≤ (a : ℚ) := h1

/-- The function `roundPos` returns a value within a relative error of 2^-53
of the quotient. -/
theorem roundPos_spec {a b : Nat} (ha : 0 < a) (hb : 0 < b) :
    |((roundPos a b).1 : ℚ) * (2 : ℚ) ^ (roundPos a b).2 - (a : ℚ) / (b : ℚ)| ≤
      (a : ℚ) / (b : ℚ) / 2 ^ 53 := by
  unfold roundPos
  simp only []
  split_ifs with h
  · exact round_scaled_spec a hb _ (scaled_first_low ha hb)
  · apply round_scaled_spec a hb
    have hd := scaled_pos a hb ((ilog2 a : Int) - (ilog2 b : Int) - 53)
    have hdq : (0 : ℚ) < ((scaled a b ((ilog2 a : Int) - (ilog2 b : Int) - 53)).2 : ℚ) := by
      exact_mod_cast hd
    have hge : (2 : ℚ) ^ 53 ≤ (a : ℚ) / (b : ℚ) /
        (2 : ℚ) ^ ((ilog2 a : Int) - (ilog2 b : Int) - 53) := by
      rw [← scaled_ratio a hb, le_div_iff₀ hdq]
      have : 2 ^ 53 * (scaled a b ((ilog2 a : Int) - (ilog2 b : Int) - 53)).2 ≤
          (scaled a b ((ilog2 a : Int) - (ilog2 b : Int) - 53)).1 := by omega
      exact_mod_cast this
    rw [zpow_add₀ (by norm_num), zpow_one, ← div_div, le_div_iff₀ (by norm_num)]
    calc (2 : ℚ) ^ 52 * 2 = 2 ^ 53 := by norm_num
      _ ≤ _ := hge

theorem toRat_mk (m e : Int) : (Float64.toRat { mant := m, exp := e }) = (m : ℚ) * (2 : ℚ) ^ e :=
  rfl

theorem round_natCast {n : Nat} (den : Nat) (hn : 0 < n) :
    Float64.round (n : Int) den =
      { mant := ((roundPos n den).1 : Int), exp := (roundPos n den).2 } := by
  unfold Float64.round
  rw [if_neg (by omega), if_neg (by omega), Int.natAbs_ofNat]

theorem round_neg_natCast {n : Nat} (den : Nat) (hn : 0 < n) :
    Float64.round (-(n : Int)) den =
      { mant := -((roundPos n den).1 : Int), exp := (roundPos n den).2 } := by
  unfold Float64.round
  rw [if_neg (by omega), if_pos (by omega), Int.natAbs_neg, Int.natAbs_ofNat]

/-- Rounding to `float64` has a relative error of at most 2^-53. -/
theorem round_spec (num : Int) {den : Nat} (hden : 0 < den) :
    |(Float64.round num den).toRat - (num : ℚ) / (den : ℚ)| ≤
      |(num : ℚ) / (den : ℚ)| / 2 ^ 53 := by
  have hdq : (0 : ℚ) < (den : ℚ) := by exact_mod_cast hden
  obtain ⟨n, rfl | rfl⟩ := Int.eq_nat_or_neg num
  · by_cases h0 : n = 0
    · subst h0
      simp [Float64.round, Float64.toRat]
    · have hn : 0 < n := Nat.pos_of_ne_zero h0
      have hspec := roundPos_spec hn hden
      have hnq : (0 : ℚ) ≤ (n : ℚ) / (den : ℚ) := by positivity
      rw [round_natCast den hn, toRat_mk]
      push_cast
      rw [abs_of_nonneg hnq]
      exact hspec
  · by_cases h0 : n = 0
    · subst h0
      simp [Float64.round, Float64.toRat]
    · have hn : 0 < n := Nat.pos_of_ne_zero h0
      have hspec := roundPos_spec hn hden
      have hnq : (0 : ℚ) ≤ (n : ℚ) / (den : ℚ) := by positivity
      rw [round_neg_natCast den hn, toRat_mk]
      push_cast
      rw [neg_div, abs_neg, abs_of_nonneg hnq]
      have he : -((roundPos n den).1 : ℚ) * (2 : ℚ) ^ (roundPos n den).2 -
          -((n : ℚ) / (den : ℚ)) =
          -(((roundPos n den).1 : ℚ) * (2 : ℚ) ^ (roundPos n den).2 - (n : ℚ) / (den : ℚ)) := by
        ring
      rw [he, abs_neg]
      exact hspec

/-- The conversion `float64(x)` has a relative error of at most 2^-53. -/
theorem ofInt64_spec (x : Int) :
    |(Float64.ofInt64 x).toRat - (x : ℚ)| ≤ |(x : ℚ)| / 2 ^ 53 := by
  have h := @round_spec x 1 (by decide)
  simpa [Float64.ofInt64] using h

/-- The division `x / c` has a relative error of at most 2^-53. -/
theorem divConst_spec (x : Float64) {c : Nat} (hc : 0 < c) :
    |(x.divConst c).toRat - x.toRat / (c : ℚ)| ≤ |x.toRat / (c : ℚ)| / 2 ^ 53 := by
  have hcq : (c : ℚ) ≠ 0 := by exact_mod_cast (ne_of_gt hc)
  unfold Float64.divConst
  split_ifs with h
  · have he : x.exp = ((x.exp.toNat : Nat) : Int) := (Int.toNat_of_nonneg h).symm
    have hval : x.toRat / (c : ℚ) =
        ((x.mant * 2 ^ x.exp.toNat : Int) : ℚ) / (c : ℚ) := by
      unfold Float64.toRat
      conv_lhs => rw [he]
      rw [zpow_natCast]
      push_cast
      ring
    rw [hval]
    exact round_spec _ hc
  · have he : x.exp = -(((-x.exp).toNat : Nat) : Int) := by omega
    have hval : x.toRat / (c : ℚ) =
        (x.mant : ℚ) / ((c * 2 ^ (-x.exp).toNat : Nat) : ℚ) := by
      unfold Float64.toRat
      conv_lhs => rw [he]
      rw [zpow_neg, zpow_natCast]
      push_cast
      simp only [div_eq_mul_inv, mul_inv]
      ring
    rw [hval]
    exact round_spec _ (Nat.mul_pos hc (Nat.pos_of_ne_zero (by positivity)))

/-- Conversion followed by division by a constant: the figure is within a
relative error of 2^-51 of the exact quotient. -/
theorem figure_spec (x : Int) {c : Nat} (hc : 0 < c) :
    |((Float64.ofInt64 x).divConst c).toRat - (x : ℚ) / (c : ℚ)| ≤
      |(x : ℚ) / (c : ℚ)| / 2 ^ 51 := by
  have hcq : (0 : ℚ) < (c : ℚ) := by exact_mod_cast hc
  have h1 := ofInt64_spec x
  have h2 := divConst_spec (Float64.ofInt64 x) hc
  have hy : |(Float64.ofInt64 x).toRat / (c : ℚ) - (x : ℚ) / (c : ℚ)| ≤
      |(x : ℚ) / (c : ℚ)| / 2 ^ 53 := by
    rw [← sub_div, abs_div, abs_div, abs_of_pos hcq, div_right_comm]
    exact div_le_div_of_nonneg_right h1 (le_of_lt hcq)
  have hy2 : |(Float64.ofInt64 x).toRat / (c : ℚ)| ≤
      |(x : ℚ) / (c : ℚ)| + |(x : ℚ) / (c : ℚ)| / 2 ^ 53 := by
    have := abs_sub_abs_le_abs_sub ((Float64.ofInt64 x).toRat / (c : ℚ)) ((x : ℚ) / (c : ℚ))
    linarith
  have hnn : 0 ≤ |(x : ℚ) / (c : ℚ)| := abs_nonneg _
  have htri := abs_sub_le (((Float64.ofInt64 x).divConst c).toRat)
    ((Float64.ofInt64 x).toRat / (c : ℚ)) ((x : ℚ) / (c : ℚ))
  have h3 : |(Float64.ofInt64 x).toRat / (c : ℚ)| / 2 ^ 53 ≤
      (|(x : ℚ) / (c : ℚ)| + |(x : ℚ) / (c : ℚ)| / 2 ^ 53) / 2 ^ 53 :=
    div_le_div_of_nonneg_right hy2 (by positivity)
  have hfin : (|(x : ℚ) / (c : ℚ)| + |(x : ℚ) / (c : ℚ)| / 2 ^ 53) / 2 ^ 53 +
      |(x : ℚ) / (c : ℚ)| / 2 ^ 53 ≤ |(x : ℚ) / (c : ℚ)| / 2 ^ 51 := by
    have e1 : (|(x : ℚ) / (c : ℚ)| + |(x : ℚ) / (c : ℚ)| / 2 ^ 53) / 2 ^ 53 +
        |(x : ℚ) / (c : ℚ)| / 2 ^ 53 =
        |(x : ℚ) / (c : ℚ)| * ((1 + 1 / 2 ^ 53) / 2 ^ 53 + 1 / 2 ^ 53) := by ring
    have e2 : |(x : ℚ) / (c : ℚ)| / 2 ^ 51 = |(x : ℚ) / (c : ℚ)| * (1 / 2 ^ 51) := by ring
    rw [e1, e2]
    exact mul_le_mul_of_nonneg_left (by norm_num) hnn
  linarith

/-- The digits `%0.2f` prints are within half a hundredth of the magnitude. -/
theorem hundredths_spec (x : Float64) :
    |(x.hundredths : ℚ) - 100 * abs x.toRat| ≤ 1 / 2 := by
  have habs : |x.toRat| = (x.mant.natAbs : ℚ) * (2 : ℚ) ^ x.exp := by
    unfold Float64.toRat
    rw [abs_mul, abs_of_pos (zpow_pos (by norm_num : (0 : ℚ) < 2) x.exp), Nat.cast_natAbs,
      Int.cast_abs]
  unfold Float64.hundredths
  split_ifs with h
  · have he : x.exp = ((x.exp.toNat : Nat) : Int) := (Int.toNat_of_nonneg h).symm
    have : (2 : ℚ) ^ x.exp = (2 : ℚ) ^ x.exp.toNat := by
      conv_lhs => rw [he]
      exact zpow_natCast 2 _
    rw [habs, this]
    push_cast
    have e : (x.mant.natAbs : ℚ) * 2 ^ x.exp.toNat * 100 -
        100 * ((x.mant.natAbs : ℚ) * 2 ^ x.exp.toNat) = 0 := by ring
    rw [Nat.cast_natAbs] at e ⊢
    rw [e]
    norm_num
  · have he : x.exp = -(((-x.exp).toNat : Nat) : Int) := by omega
    have hp : (2 : ℚ) ^ x.exp = ((2 : ℚ) ^ (-x.exp).toNat)⁻¹ := by
      conv_lhs => rw [he]
      rw [zpow_neg, zpow_natCast]
    have hr := divRoundEven_rat (x.mant.natAbs * 100)
      (Nat.pos_of_ne_zero (by positivity : 2 ^ (-x.exp).toNat ≠ 0))
    have hq : ((x.mant.natAbs * 100 : Nat) : ℚ) / ((2 ^ (-x.exp).toNat : Nat) : ℚ) =
        100 * |x.toRat| := by
      rw [habs, hp]
      push_cast
      field_simp
      ring
    rw [hq] at hr
    exact hr

theorem ilog2_unique {n k : Nat} (h1 : 2 ^ k ≤ n) (h2 : n < 2 ^ (k + 1)) : ilog2 n = k := by
  have hpos : 0 < n := lt_of_lt_of_le (Nat.pos_of_ne_zero (by positivity)) h1
  have h3 := ilog2_le hpos
  have h4 := lt_ilog2 hpos
  by_contra hne
  rcases Nat.lt_or_gt_of_ne hne with hlt | hgt
  · have : 2 ^ (ilog2 n + 1) ≤ 2 ^ k := Nat.pow_le_pow_right (by decide) hlt
    omega
  · have : 2 ^ (k + 1) ≤ 2 ^ ilog2 n := Nat.pow_le_pow_right (by decide) hgt
    omega

theorem ilog2_mul_pow {m : Nat} (hm : 0 < m) (j : Nat) : ilog2 (m * 2 ^ j) = ilog2 m + j := by
  apply ilog2_unique
  · rw [Nat.pow_add]
    exact Nat.mul_le_mul_right _ (ilog2_le hm)
  · have : 2 ^ (ilog2 m + j + 1) = 2 ^ (ilog2 m + 1) * 2 ^ j := by
      rw [← Nat.pow_add]
      congr 1
      omega
    rw [this]
    exact Nat.mul_lt_mul_of_pos_right (lt_ilog2 hm) (Nat.pos_of_ne_zero (by positivity))

theorem ilog2_two_pow (k : Nat) : ilog2 (2 ^ k) = k := by
  apply ilog2_unique (le_refl _)
  exact Nat.pow_lt_pow_right (by decide) (Nat.lt_succ_self k)

theorem ilog2_lt_of_lt {m : Nat} (hm : 0 < m) (h : m < 2 ^ 53) : ilog2 m < 53 := by
  by_contra hc
  have : 2 ^ 53 ≤ 2 ^ ilog2 m := Nat.pow_le_pow_right (by decide) (by omega)
  have := ilog2_le hm
  omega

/-- When the exponent is small enough, the scaled quotient of `m * 2^j` by
`2^k` is an integer. -/
theorem scaled_dvd (m j k : Nat) (e : Int) (h : (k : Int) + e ≤ j) :
    (scaled (m * 2 ^ j) (2 ^ k) e).2 ∣ (scaled (m * 2 ^ j) (2 ^ k) e).1 := by
  unfold scaled
  split_ifs with he
  · have : j = (k + e.toNat) + (j - (k + e.toNat)) := by omega
    show 2 ^ k * 2 ^ e.toNat ∣ m * 2 ^ j
    rw [← Nat.pow_add]
    conv_rhs => rw [this, Nat.pow_add]
    exact ⟨m * 2 ^ (j - (k + e.toNat)), by ring⟩
  · have : j + (-e).toNat = k + (j + (-e).toNat - k) := by omega
    show 2 ^ k ∣ m * 2 ^ j * 2 ^ (-e).toNat
    rw [Nat.mul_assoc, ← Nat.pow_add, this, Nat.pow_add]
    exact ⟨m * 2 ^ (j + (-e).toNat - k), by ring⟩

/-- Rounding an integer scaled quotient is exact. -/
theorem round_scaled_exact (a : Nat) {b : Nat} (hb : 0 < b) (e : Int)
    (h : (scaled a b e).2 ∣ (scaled a b e).1) :
    (divRoundEven (scaled a b e).1 (scaled a b e).2 : ℚ) * (2 : ℚ) ^ e = (a : ℚ) / (b : ℚ) := by
  have hd := scaled_pos a hb e
  have hdq : ((scaled a b e).2 : ℚ) ≠ 0 := by exact_mod_cast (ne_of_gt hd)
  have hpe : (2 : ℚ) ^ e ≠ 0 := ne_of_gt (zpow_pos (by norm_num) e)
  rw [divRoundEven_of_dvd hd h, Nat.cast_div h hdq, scaled_ratio a hb e,
    div_mul_cancel₀ _ hpe]

/-- A quotient `m * 2^j / 2^k` with `m < 2^53` is a `float64`: rounding it
is exact. -/
theorem roundPos_exact {m : Nat} (hm : 0 < m) (h53 : m < 2 ^ 53) (j k : Nat) :
    ((roundPos (m * 2 ^ j) (2 ^ k)).1 : ℚ) * (2 : ℚ) ^ (roundPos (m * 2 ^ j) (2 ^ k)).2 =
      ((m * 2 ^ j : Nat) : ℚ) / ((2 ^ k : Nat) : ℚ) := by
  have hb : 0 < 2 ^ k := Nat.pos_of_ne_zero (by positivity)
  have hl := ilog2_lt_of_lt hm h53
  unfold roundPos
  simp only []
  rw [ilog2_mul_pow hm, ilog2_two_pow]
  split_ifs with h
  · exact round_scaled_exact _ hb _ (scaled_dvd m j k _ (by push_cast; omega))
  · exact round_scaled_exact _ hb _ (scaled_dvd m j k _ (by push_cast; omega))

/-- Rounding the rational `x * 2^j / 2^k`, with `|x| < 2^53`, is exact. -/
theorem round_exact (x : Int) (hx : |x| < 2 ^ 53) (j k : Nat) :
    (Float64.round (x * 2 ^ j) (2 ^ k)).toRat = (x : ℚ) * 2 ^ j / 2 ^ k := by
  obtain ⟨n, rfl | rfl⟩ := Int.eq_nat_or_neg x
  · by_cases h0 : n = 0
    · subst h0
      simp [Float64.round, Float64.toRat]
    · have hn : 0 < n := Nat.pos_of_ne_zero h0
      have h53 : n < 2 ^ 53 := by
        rw [abs_of_nonneg (by omega)] at hx
        exact_mod_cast hx
      have hcast : ((n : Int) * 2 ^ j) = ((n * 2 ^ j : Nat) : Int) := by push_cast; ring
      rw [hcast, round_natCast _ (Nat.mul_pos hn (Nat.pos_of_ne_zero (by positivity))),
        toRat_mk]
      push_cast
      have := roundPos_exact hn h53 j k
      push_cast at this
      exact this
  · by_cases h0 : n = 0
    · subst h0
      simp [Float64.round, Float64.toRat]
    · have hn : 0 < n := Nat.pos_of_ne_zero h0
      have h53 : n < 2 ^ 53 := by
        rw [abs_neg, abs_of_nonneg (by omega)] at hx
        exact_mod_cast hx
      have hcast : (-(n : Int) * 2 ^ j) = -((n * 2 ^ j : Nat) : Int) := by push_cast; ring
      rw [hcast, round_neg_natCast _ (Nat.mul_pos hn (Nat.pos_of_ne_zero (by positivity))),
        toRat_mk]
      push_cast
      have := roundPos_exact hn h53 j k
      push_cast at this
      rw [neg_mul, this]
      ring

/-- The conversion `float64(x)` is exact for `|x| < 2^53`. -/
theorem ofInt64_exact (x : Int) (hx : |x| < 2 ^ 53) : (Float64.ofInt64 x).toRat = (x : ℚ) := by
  have h := round_exact x hx 0 0
  simpa [Float64.ofInt64] using h

/-- Dividing a `float64` that is an integer below 2^53 in magnitude by a
power of two is exact. -/
theorem divConst_two_pow_exact (x : Float64) (v : Int) (hv : |v| < 2 ^ 53)
    (hx : x.toRat = (v : ℚ)) (k : Nat) :
    (x.divConst (2 ^ k)).toRat = (v : ℚ) / 2 ^ k := by
  unfold Float64.divConst
  split_ifs with h
  · have he : x.exp = ((x.exp.toNat : Nat) : Int) := (Int.toNat_of_nonneg h).symm
    have hval : x.mant * 2 ^ x.exp.toNat = v := by
      have : ((x.mant * 2 ^ x.exp.toNat : Int) : ℚ) = (v : ℚ) := by
        rw [← hx]
        unfold Float64.toRat
        conv_rhs => rw [he]
        rw [zpow_natCast]
        push_cast
        ring
      exact_mod_cast this
    rw [hval]
    have := round_exact v hv 0 k
    simpa using this
  · obtain ⟨n, hn⟩ : ∃ n : Nat, x.exp = -(n : Int) := ⟨(-x.exp).toNat, by omega⟩
    have hn' : (-x.exp).toNat = n := by omega
    have hp : (2 : ℚ) ^ n ≠ 0 := by positivity
    have hval : x.mant = v * 2 ^ n := by
      have : (x.mant : ℚ) = ((v * 2 ^ n : Int) : ℚ) := by
        unfold Float64.toRat at hx
        rw [hn, zpow_neg, zpow_natCast] at hx
        push_cast
        rw [← hx, mul_assoc, inv_mul_cancel₀ hp, mul_one]
      exact_mod_cast this
    rw [hn', hval, ← Nat.pow_add, round_exact v hv _ _, pow_add]
    field_simp
    ring

theorem mibFigure_exact (bytes : Int) (h : |bytes| < 2 ^ 53) :
    (mibFigure bytes).toRat = (bytes : ℚ) / (1024 * 1024) := by
  have h20 : (1024 * 1024 : Nat) = 2 ^ 20 := by decide
  unfold mibFigure
  rw [h20, divConst_two_pow_exact _ bytes h (ofInt64_exact bytes h) 20]
  norm_num

theorem figure_ne_half (x : Int) {c : Nat} (hc : 0 < c) (hx : x ≠ 0) :
    ((Float64.ofInt64 x).divConst c).toRat ≠ (x : ℚ) / (c : ℚ) / 2 := by
  intro heq
  have hspec := figure_spec x hc
  have hcq : (c : ℚ) ≠ 0 := by exact_mod_cast (ne_of_gt hc)
  have hxq : (x : ℚ) ≠ 0 := by exact_mod_cast hx
  have hq : 0 < |(x : ℚ) / (c : ℚ)| := abs_pos.mpr (div_ne_zero hxq hcq)
  rw [heq] at hspec
  have he : (x : ℚ) / (c : ℚ) / 2 - (x : ℚ) / (c : ℚ) = -((x : ℚ) / (c : ℚ) / 2) := by ring
  rw [he, abs_neg, abs_div, abs_of_pos (by norm_num : (0 : ℚ) < 2)] at hspec
  have : |(x : ℚ) / (c : ℚ)| / 2 ^ 51 < |(x : ℚ) / (c : ℚ)| / 2 :=
    div_lt_div_of_pos_left hq (by norm_num) (by norm_num)
  linarith

theorem printRateTick_eq (c : Counters) :
    printRateTick c = (Counters.zero, rateLine c.rateRecords c.rateBytes) := rfl

/-- C10: on every tick the reporter prints figures computed only from the
values it swapped out for that tick (and leaves both counters at zero): the
figure labelled MiB/s is `float64(bytes)/(1024*1024)` and the figure labelled
k records/s is `float64(recs)/1000`, the raw per-tick amounts, not divided by
the 2-second interval.  As numbers: the MiB figure is exactly
bytes/(1024*1024) for |bytes| < 2^53 and within a relative error of 2^-51
for every `int64`, so is the records figure of recs/1000; neither is half
the per-tick amount; `%0.2f` prints them rounded to the nearest hundredth.
A tick that drains 2097152 bytes and 3000 records prints
"2.00 MiB/s; 3.00k records/s". -/
theorem printRate_reports_tick_amounts (c : Counters) :
    printRateTick c =
        (Counters.zero,
          fmt2f ((Float64.ofInt64 c.rateBytes).divConst (1024 * 1024)) ++ " MiB/s; " ++
            fmt2f ((Float64.ofInt64 c.rateRecords).divConst 1000) ++ "k records/s\n") ∧
      |(mibFigure c.rateBytes).toRat - (c.rateBytes : ℚ) / (1024 * 1024)| ≤
        |(c.rateBytes : ℚ) / (1024 * 1024)| / 2 ^ 51 ∧
      |(kRecordsFigure c.rateRecords).toRat - (c.rateRecords : ℚ) / 1000| ≤
        |(c.rateRecords : ℚ) / 1000| / 2 ^ 51 ∧
      (|c.rateBytes| < 2 ^ 53 →
        (mibFigure c.rateBytes).toRat = (c.rateBytes : ℚ) / (1024 * 1024)) ∧
      (c.rateBytes ≠ 0 →
        (mibFigure c.rateBytes).toRat ≠ (c.rateBytes : ℚ) / (1024 * 1024) / 2) ∧
      (c.rateRecords ≠ 0 →
        (kRecordsFigure c.rateRecords).toRat ≠ (c.rateRecords : ℚ) / 1000 / 2) ∧
      |((mibFigure c.rateBytes).hundredths : ℚ) - 100 * abs (mibFigure c.rateBytes).toRat| ≤
        1 / 2 ∧
      |((kRecordsFigure c.rateRecords).hundredths : ℚ) -
          100 * abs (kRecordsFigure c.rateRecords).toRat| ≤ 1 / 2 ∧
      printRateTick { rateRecords := 3000, rateBytes := 2097152 } =
        (Counters.zero, "2.00 MiB/s; 3.00k records/s\n") := by
  have e1 : ((1024 * 1024 : Nat) : ℚ) = 1024 * 1024 := by norm_num
  have e2 : ((1000 : Nat) : ℚ) = 1000 := by norm_num
  have hmib := @figure_spec c.rateBytes (1024 * 1024) (by decide)
  have hrec := @figure_spec c.rateRecords 1000 (by decide)
  have hmib2 := @figure_ne_half c.rateBytes (1024 * 1024) (by decide)
  have hrec2 := @figure_ne_half c.rateRecords 1000 (by decide)
  rw [e1] at hmib hmib2
  rw [e2] at hrec hrec2
  exact ⟨rfl, hmib, hrec, mibFigure_exact c.rateBytes, hmib2, hrec2, hundredths_spec _,
    hundredths_spec _, by decide⟩

/-- The tick of the example: 2097152 bytes and 3000 records. -/
theorem printRate_reports_tick_amounts_witness :
    (mibFigure 2097152).toRat = 2 ∧
      printRateTick { rateRecords := 3000, rateBytes := 2097152 } =
        (Counters.zero, "2.00 MiB/s; 3.00k records/s\n") := by
  have h := printRate_reports_tick_amounts { rateRecords := 3000, rateBytes := 2097152 }
  refine ⟨?_, h.2.2.2.2.2.2.2.2⟩
  have h4 := h.2.2.2.1 (by norm_num)
  rw [h4]
  norm_num

end KafkaCompactTest
